import Mathlib

/-!
Shallow embedding of `Drivers/BSP/OLED/oled.c`.

The driver keeps a 128 x 8 byte framebuffer `g_oled_gram` and pushes it to the
display controller one tagged byte at a time through `oled_wr_byte`.

Conventions of the embedding

* `uint8_t` / `uint32_t` values are natural numbers; every place where the C
  code can overflow carries an explicit `% 256` or `% 2 ^ 32`.  Function
  parameters of type `uint8_t` are expected to be below 256; a call site whose
  argument expression can exceed 255 truncates it there.
* The stored framebuffer bytes are `Fin 256` (the array element type is
  `uint8_t`), indexed by column and page.
* The physical transport (GPIO lines, SPI clocking, `delay_ms`) is abstracted
  to a log of the bytes handed to `oled_wr_byte`, each with its command/data
  flag, in emission order.
* The glyph tables of the header `oledfont.h` are a parameter (`Font`).
-/

namespace Oled

/-- One element of `g_oled_gram`: a `uint8_t`. -/
abbrev Byte := Fin 256

/-- Truncation of an `int` expression on assignment to a `uint8_t`. -/
def toByte (n : Nat) : Byte := ⟨n % 256, Nat.mod_lt _ (by decide)⟩

/-- Driver state: `g_oled_gram[column][page]` and the bytes sent so far to the
byte transport, oldest first, as pairs `(byte, flag)`. -/
structure State where
  gram : Nat → Nat → Byte
  out : List (Nat × Nat)

/-- Modelled from the spec: the command tag of the missing header `oled.h`
(the source documents `cmd` as "0 command, 1 data"). -/
def OLED_CMD : Nat := 0

/-- Modelled from the spec: the data tag of the missing header `oled.h`
(the source documents `cmd` as "0 command, 1 data"). -/
def OLED_DATA : Nat := 1

/-- The three glyph tables of the missing header `oledfont.h`, each indexed by
`chr - ' '` and then by the byte index inside the glyph. -/
structure Font where
  oled_asc2_1206 : Nat → Nat → Nat
  oled_asc2_1608 : Nat → Nat → Nat
  oled_asc2_2412 : Nat → Nat → Nat

/-- The framebuffer with every byte zero and nothing sent yet. -/
def zeroState : State := { gram := fun _ _ => 0, out := [] }

/-- Pixel read-back: bit `y % 8` of `g_oled_gram[x][y / 8]`. -/
def pixel (s : State) (x y : Nat) : Bool := (s.gram x (y / 8)).val.testBit (y % 8)

/-- The loop `for (i = 0; i < n; i++) body(i)` with a `uint8_t` counter that the
body does not modify and a bound `n <= 255`, so the counter never wraps. -/
def forUpTo {σ : Type} (n : Nat) (body : Nat → σ → σ) (s : σ) : σ :=
  (List.range n).foldl (fun acc i => body i acc) s

/-- `oled_wr_byte(data, cmd)`: hand one byte with its tag to the transport. -/
def oled_wr_byte (data cmd : Nat) (s : State) : State :=
  { s with out := s.out ++ [(data % 256, cmd)] }

/-- The assignment `g_oled_gram[x][pos] = v`. -/
def gram_store (x pos : Nat) (v : Byte) (s : State) : State :=
  { s with gram := fun c p => if c = x ∧ p = pos then v else s.gram c p }

/-- `oled_refresh_gram`: for each page send three command bytes and then the
128 column bytes of that page. -/
def oled_refresh_gram (s : State) : State :=
  forUpTo 8 (fun i s =>
    let s := oled_wr_byte (0xb0 + i) OLED_CMD s
    let s := oled_wr_byte 0x00 OLED_CMD s
    let s := oled_wr_byte 0x10 OLED_CMD s
    forUpTo 128 (fun n s => oled_wr_byte (s.gram n i).val OLED_DATA s) s) s

/-- `oled_clear`: zero every byte, then refresh. -/
def oled_clear (s : State) : State :=
  let s := forUpTo 8 (fun i s => forUpTo 128 (fun n s => gram_store n i 0 s) s) s
  oled_refresh_gram s

/-- `oled_draw_point(x, y, dot)`.  `~temp` is computed on the promoted 32-bit
`int`, whose bit pattern is `2 ^ 32 - 1 - temp`; the result of `|=` / `&=` is
truncated to the `uint8_t` array element. -/
def oled_draw_point (x y dot : Nat) (s : State) : State :=
  if x > 127 ∨ y > 63 then s
  else
    let pos := y / 8
    let bx := y % 8
    let temp := (1 <<< bx) % 256
    if dot ≠ 0 then
      gram_store x pos (toByte ((s.gram x pos).val ||| temp)) s
    else
      gram_store x pos (toByte ((s.gram x pos).val &&& (2 ^ 32 - 1 - temp))) s

/-- Inner loop of `oled_fill`, `for (y = y1; y <= y2; y++)`, with the `uint8_t`
counter wrapping; `none` when the fuel runs out.  The callee `draw` stands for
`oled_draw_point`. -/
def fill_col {σ : Type} (draw : Nat → Nat → Nat → σ → σ) (x y2 dot : Nat) :
    Nat → Nat → σ → Option σ
  | 0, _, _ => none
  | fuel + 1, y, s =>
    if y ≤ y2 then fill_col draw x y2 dot fuel ((y + 1) % 256) (draw x y dot s)
    else some s

/-- Outer loop of `oled_fill`, `for (x = x1; x <= x2; x++)`, with the `uint8_t`
counter wrapping; `none` when the fuel runs out. -/
def fill_rows {σ : Type} (draw : Nat → Nat → Nat → σ → σ) (y1 x2 y2 dot : Nat) :
    Nat → Nat → σ → Option σ
  | 0, _, _ => none
  | fuel + 1, x, s =>
    if x ≤ x2 then
      match fill_col draw x y2 dot (fuel + 1) y1 s with
      | none => none
      | some s => fill_rows draw y1 x2 y2 dot fuel ((x + 1) % 256) s
    else some s

/-- `oled_fill(x1, y1, x2, y2, dot)`: the two loops, then a refresh. -/
def oled_fill (fuel x1 y1 x2 y2 dot : Nat) (s : State) : Option State :=
  match fill_rows oled_draw_point y1 x2 y2 dot fuel x1 s with
  | none => none
  | some s => some (oled_refresh_gram s)

/-- Inner loop of `oled_show_char`, `for (t1 = 0; t1 < 8; t1++)`, with `rem`
iterations left; returns the running `x`, `y` and the state.  The comparison
`(y - y0) == size` is done on `int`. -/
def show_char_bits (size mode y0 : Nat) : Nat → Nat → Nat → Nat → State → Nat × Nat × State
  | 0, x, y, _, s => (x, y, s)
  | rem + 1, x, y, temp, s =>
    let s := if temp &&& 0x80 ≠ 0 then oled_draw_point x y mode s
             else oled_draw_point x y (if mode = 0 then 1 else 0) s
    let temp := (temp <<< 1) % 256
    let y := (y + 1) % 256
    if (y : Int) - (y0 : Int) = (size : Int) then ((x + 1) % 256, y0, s)
    else show_char_bits size mode y0 rem x y temp s

/-- Outer loop of `oled_show_char`, `for (t = 0; t < csize; t++)`, over the
glyph bytes `pfont[t]` (table entries are `uint8_t`). -/
def show_char_glyph (pfont : Nat → Nat) (size mode y0 csize x y : Nat) (s : State) : State :=
  (forUpTo csize (fun t (st : Nat × Nat × State) =>
      show_char_bits size mode y0 8 st.1 st.2.1 (pfont t % 256) st.2.2) (x, y, s)).2.2

/-- `oled_show_char(x, y, chr, size, mode)`. -/
def oled_show_char (F : Font) (x y chr size mode : Nat) (s : State) : State :=
  let y0 := y
  let csize := ((size / 8 + (if size % 8 ≠ 0 then 1 else 0)) * (size / 2)) % 256
  let chr := (chr + 256 - 32) % 256
  if size = 12 then show_char_glyph (F.oled_asc2_1206 chr) size mode y0 csize x y s
  else if size = 16 then show_char_glyph (F.oled_asc2_1608 chr) size mode y0 csize x y s
  else if size = 24 then show_char_glyph (F.oled_asc2_2412 chr) size mode y0 csize x y s
  else s

/-- The loop of `oled_pow`, `while (n--) result *= m`, in `uint32_t`. -/
def oled_pow_loop (m : Nat) : Nat → Nat → Nat
  | 0, result => result
  | n + 1, result => oled_pow_loop m n ((result * m) % 2 ^ 32)

/-- `oled_pow(m, n)`. -/
def oled_pow (m n : Nat) : Nat := oled_pow_loop m n 1

/-- The loop of `oled_show_num`, `for (t = 0; t < len; t++)`, with `rem = len - t`
iterations left.  The callee `show_char` stands for `oled_show_char`.  A
division by `oled_pow(..) = 0` has no defined result: `none`. -/
def show_num_loop {σ : Type} (show_char : Nat → Nat → Nat → Nat → Nat → σ → σ)
    (x y num len size : Nat) : Nat → Nat → Nat → σ → Option σ
  | 0, _, _, s => some s
  | rem + 1, t, enshow, s =>
    let p := oled_pow 10 ((len - t - 1) % 256)
    if p = 0 then none
    else
      let temp := ((num / p) % 10) % 256
      if enshow = 0 ∧ t < len - 1 then
        if temp = 0 then
          show_num_loop show_char x y num len size rem (t + 1) enshow
            (show_char ((x + (size / 2) * t) % 256) y 32 size 1 s)
        else
          show_num_loop show_char x y num len size rem (t + 1) 1
            (show_char ((x + (size / 2) * t) % 256) y ((temp + 48) % 256) size 1 s)
      else
        show_num_loop show_char x y num len size rem (t + 1) enshow
          (show_char ((x + (size / 2) * t) % 256) y ((temp + 48) % 256) size 1 s)

/-- `oled_show_num` over an arbitrary callee. -/
def oled_show_num_with {σ : Type} (show_char : Nat → Nat → Nat → Nat → Nat → σ → σ)
    (x y num len size : Nat) (s : σ) : Option σ :=
  show_num_loop show_char x y num len size len 0 0 s

/-- `oled_show_num(x, y, num, len, size)`. -/
def oled_show_num (F : Font) (x y num len size : Nat) (s : State) : Option State :=
  oled_show_num_with (oled_show_char F) x y num len size s

/-- `oled_show_string` over arbitrary callees; the text is the list of bytes
before the terminating NUL.  Both comparisons are done on `int`. -/
def oled_show_string_with {σ : Type} (show_char : Nat → Nat → Nat → Nat → Nat → σ → σ)
    (clear : σ → σ) (size : Nat) : Nat → Nat → List Nat → σ → σ
  | _, _, [], s => s
  | x, y, c :: p, s =>
    if c ≤ 126 ∧ c ≥ 32 then
      let xy : Nat × Nat :=
        if (x : Int) > 128 - ((size / 2 : Nat) : Int) then (0, (y + size) % 256) else (x, y)
      let xys : Nat × Nat × σ :=
        if (xy.2 : Int) > 64 - (size : Int) then (0, 0, clear s) else (xy.1, xy.2, s)
      let s := show_char xys.1 xys.2.1 c size 1 xys.2.2
      oled_show_string_with show_char clear size ((xys.1 + size / 2) % 256) xys.2.1 p s
    else s

/-- `oled_show_string(x, y, p, size)`. -/
def oled_show_string (F : Font) (x y : Nat) (p : List Nat) (size : Nat) (s : State) : State :=
  oled_show_string_with (oled_show_char F) oled_clear size x y p s

/-- `oled_init`: the controller configuration bytes, all sent as commands, and
then `oled_clear`.  The pin configuration, the reset pulse and `delay_ms` act
below the byte transport and leave no trace in the state. -/
def oled_init (s : State) : State :=
  let s := oled_wr_byte 0xae OLED_CMD s
  let s := oled_wr_byte 0x40 OLED_CMD s
  let s := oled_wr_byte 0x81 OLED_CMD s
  let s := oled_wr_byte 0x72 OLED_CMD s
  let s := oled_wr_byte 0xa1 OLED_CMD s
  let s := oled_wr_byte 0xa4 OLED_CMD s
  let s := oled_wr_byte 0xa6 OLED_CMD s
  let s := oled_wr_byte 0xa8 OLED_CMD s
  let s := oled_wr_byte 0x3f OLED_CMD s
  let s := oled_wr_byte 0xc8 OLED_CMD s
  let s := oled_wr_byte 0xd3 OLED_CMD s
  let s := oled_wr_byte 0x00 OLED_CMD s
  let s := oled_wr_byte 0xd5 OLED_CMD s
  let s := oled_wr_byte 0xb0 OLED_CMD s
  let s := oled_wr_byte 0xd9 OLED_CMD s
  let s := oled_wr_byte 0x22 OLED_CMD s
  let s := oled_wr_byte 0xda OLED_CMD s
  let s := oled_wr_byte 0x12 OLED_CMD s
  let s := oled_wr_byte 0xdb OLED_CMD s
  let s := oled_wr_byte 0x3c OLED_CMD s
  let s := oled_wr_byte 0xAF OLED_CMD s
  oled_clear s

/-! ## Definitions used to state the properties -/

/-- The bytes that one page `p` contributes to a flush: three command bytes,
then the 128 column bytes of the page as data. -/
def pageStream (g : Nat → Nat → Byte) (p : Nat) : List (Nat × Nat) :=
  [(0xB0 + p, OLED_CMD), (0x00, OLED_CMD), (0x10, OLED_CMD)] ++
    (List.range 128).map (fun n => ((g n p).val, OLED_DATA))

/-- The byte stream of a whole flush of the framebuffer `g`: pages 0 to 7. -/
def flushStream (g : Nat → Nat → Byte) : List (Nat × Nat) :=
  (List.range 8).flatMap (pageStream g)

/-- Number of pixels of the 128 x 64 screen that read as set. -/
def litPixels (s : State) : Nat :=
  ((List.range 128).map (fun x => (List.range 64).countP (fun y => pixel s x y))).sum

/-- One call `oled_show_char(x, y, chr, size, mode)`. -/
structure CharCall where
  x : Nat
  y : Nat
  chr : Nat
  size : Nat
  mode : Nat
  deriving DecidableEq

/-- A callee that only records the call it receives, in call order. -/
def recordChar (x y chr size mode : Nat) (l : List CharCall) : List CharCall :=
  l ++ [{ x := x, y := y, chr := chr, size := size, mode := mode }]

/-- Run a recorded call on a callee. -/
def CharCall.run {σ : Type} (show_char : Nat → Nat → Nat → Nat → Nat → σ → σ)
    (c : CharCall) (s : σ) : σ :=
  show_char c.x c.y c.chr c.size c.mode s

/-- The decimal digit `d_t = (num / 10^(len-1-t)) mod 10`. -/
def numDigit (num len t : Nat) : Nat := (num / 10 ^ (len - 1 - t)) % 10

/-- The character `c_t` of position `t`: a blank while `t < len - 1` and the
digits `d_0 .. d_t` are all zero, the digit character otherwise. -/
def numChar (num len t : Nat) : Nat :=
  if t < len - 1 ∧ ∀ i, i ≤ t → numDigit num len i = 0 then 32 else 48 + numDigit num len t

/-- The calls expected from `oled_show_num`, in order `t = 0 .. len-1`. -/
def numCalls (x y num len size : Nat) : List CharCall :=
  (List.range len).map (fun t =>
    { x := (x + (size / 2) * t) % 256, y := y, chr := numChar num len t, size := size, mode := 1 })

/-- The `dot` argument of the `oled_draw_point` call made for a glyph byte
whose current value is `temp`: `mode` when bit 7 is set, `!mode` otherwise. -/
def bitDot (mode temp : Nat) : Nat :=
  if temp &&& 0x80 ≠ 0 then mode else (if mode = 0 then 1 else 0)

/-- A sequence of `oled_draw_point` calls, given as `(x, y, dot)` triples. -/
def drawList (pts : List (Nat × Nat × Nat)) (s : State) : State :=
  pts.foldl (fun s p => oled_draw_point p.1 p.2.1 p.2.2 s) s

/-- Bytes per glyph column, `ceil(size / 8)`: the first factor of `csize`. -/
def colBytes (size : Nat) : Nat := size / 8 + (if size % 8 ≠ 0 then 1 else 0)

/-- Byte `t` of the glyph of the printable character `chr` in the table that
`oled_show_char` selects for `size`. -/
def glyphByte (F : Font) (size chr t : Nat) : Nat :=
  if size = 12 then F.oled_asc2_1206 (chr - 32) t
  else if size = 16 then F.oled_asc2_1608 (chr - 32) t
  else F.oled_asc2_2412 (chr - 32) t

/-- The points drawn for glyph byte `t` when a glyph column takes `k` bytes:
column `x + t / k`, rows `y0 + 8 * (t % k) + j` for the bits `j` that still lie
inside the `size` rows of the cell. -/
def bytePoints (pfont : Nat → Nat) (size k mode x y0 t : Nat) : List (Nat × Nat × Nat) :=
  (List.range (min 8 (size - 8 * (t % k)))).map
    (fun j => (x + t / k, y0 + 8 * (t % k) + j, bitDot mode (((pfont t % 256) <<< j) % 256)))

/-- A font whose size-12 glyphs all have byte 1 equal to `0x80`, whose size-16
glyphs all have byte 0 equal to `0x80`, and whose other bytes are zero. -/
def probeFont : Font :=
  { oled_asc2_1206 := fun _ t => if t = 1 then 0x80 else 0
    oled_asc2_1608 := fun _ t => if t = 0 then 0x80 else 0
    oled_asc2_2412 := fun _ _ => 0 }

/-- Two states hold the same framebuffer: the bytes of the 128 columns and 8
pages of `g_oled_gram` agree. -/
def ScreenEq (s1 s2 : State) : Prop :=
  ∀ c p, c < 128 → p < 8 → s1.gram c p = s2.gram c p

/-- The flush stream of the all-zero framebuffer. -/
def zeroFlush : List (Nat × Nat) := flushStream (fun _ _ => 0)

/-- A state whose framebuffer bytes are all `0xFF`, with nothing sent yet. -/
def fullState : State := { gram := fun _ _ => 255, out := [] }

/-- Where the loop body of `oled_show_string` puts a printable character when
the cursor is at `(x, y)`: the column and row after the width guard and the
height guard, and whether the height guard fired (the screen is cleared). -/
def stringCursor (size x y : Nat) : Nat × Nat × Bool :=
  let xy : Nat × Nat :=
    if (x : Int) > 128 - ((size / 2 : Nat) : Int) then (0, (y + size) % 256) else (x, y)
  if (xy.2 : Int) > 64 - (size : Int) then (0, 0, true) else (xy.1, xy.2, false)

/-- The longest prefix of a text whose bytes all lie in `[0x20, 0x7E]`. -/
def printablePrefix (text : List Nat) : List Nat :=
  text.takeWhile (fun c => decide (c ≤ 126 ∧ c ≥ 32))

/-- `oled_show_char` on the state, with the call appended to a ghost list. -/
def traceChar (F : Font) (x y chr size mode : Nat) (st : State × List CharCall) :
    State × List CharCall :=
  (oled_show_char F x y chr size mode st.1,
   st.2 ++ [{ x := x, y := y, chr := chr, size := size, mode := mode }])

/-- `oled_clear` on the state; the ghost list of calls is kept. -/
def traceClear (st : State × List CharCall) : State × List CharCall :=
  (oled_clear st.1, st.2)

/-- Number of `oled_clear` calls that `oled_show_string` makes: the string loop
run on a counter, with a callee for `oled_show_char` that does nothing and a
callee for `oled_clear` that counts. -/
def stringClears (size x y : Nat) (text : List Nat) : Nat :=
  oled_show_string_with (fun _ _ _ _ _ (n : Nat) => n) (fun n => n + 1) size x y text 0

/-- `oled_draw_point` on the state, with a ghost counter of the calls made. -/
def traceDraw (x y dot : Nat) (st : State × Nat) : State × Nat :=
  (oled_draw_point x y dot st.1, st.2 + 1)

/-- The points drawn for glyph byte `t` when the running column is allowed to
wrap past 255: as `bytePoints`, with the column taken modulo 256. -/
def bytePointsW (pfont : Nat → Nat) (size k mode x y0 t : Nat) : List (Nat × Nat × Nat) :=
  (List.range (min 8 (size - 8 * (t % k)))).map
    (fun j => ((x + t / k) % 256, y0 + 8 * (t % k) + j,
      bitDot mode (((pfont t % 256) <<< j) % 256)))

/-! ## Framebuffer primitives -/

theorem toByte_val (n : Nat) : (toByte n).val = n % 256 := rfl

theorem draw_point_out (x y dot : Nat) (s : State) :
    (oled_draw_point x y dot s).out = s.out := by
  unfold oled_draw_point gram_store
  split
  · rfl
  · dsimp only; split <;> rfl

theorem temp_eq (b : Nat) (hb : b < 8) : (1 <<< b) % 256 = 2 ^ b := by
  rw [Nat.one_shiftLeft]
  have : 2 ^ b < 2 ^ 8 := Nat.pow_lt_pow_right (by decide) hb
  exact Nat.mod_eq_of_lt this

theorem pow_lt_256 (b : Nat) (hb : b < 8) : 2 ^ b < 256 := by
  have : 2 ^ b < 2 ^ 8 := Nat.pow_lt_pow_right (by decide) hb
  simpa using this

/-- Bit `i` of the byte written by the `dot != 0` branch. -/
theorem set_bit_testBit (v b i : Nat) (hv : v < 256) (hb : b < 8) :
    ((v ||| 2 ^ b) % 256).testBit i = (v.testBit i || decide (b = i)) := by
  have h256 : (256 : Nat) = 2 ^ 8 := by norm_num
  rw [h256, Nat.testBit_mod_two_pow, Nat.testBit_or, Nat.testBit_two_pow]
  by_cases hi : i < 8
  · simp [hi]
  · have hvi : v.testBit i = false :=
      Nat.testBit_lt_two_pow (lt_of_lt_of_le hv (by
        rw [h256]; exact Nat.pow_le_pow_right (by decide) (by omega)))
    have : b ≠ i := by omega
    simp [hi, hvi, this]

/-- Bit `i` of the byte written by the `dot == 0` branch. -/
theorem clear_bit_testBit (v b i : Nat) (hv : v < 256) (hb : b < 8) :
    ((v &&& (2 ^ 32 - 1 - 2 ^ b)) % 256).testBit i = (v.testBit i && !decide (b = i)) := by
  have h256 : (256 : Nat) = 2 ^ 8 := by norm_num
  have hlt : 2 ^ b < 2 ^ 32 := Nat.pow_lt_pow_right (by decide) (by omega)
  have hsub : 2 ^ 32 - 1 - 2 ^ b = 2 ^ 32 - (2 ^ b + 1) := by omega
  rw [h256, Nat.testBit_mod_two_pow, Nat.testBit_and, hsub,
    Nat.testBit_two_pow_sub_succ hlt, Nat.testBit_two_pow]
  by_cases hi : i < 8
  · have : i < 32 := by omega
    simp [hi, this]
  · have hvi : v.testBit i = false :=
      Nat.testBit_lt_two_pow (lt_of_lt_of_le hv (by
        rw [h256]; exact Nat.pow_le_pow_right (by decide) (by omega)))
    simp [hi, hvi]

/-- Every bit of the byte at column `x`, page `y / 8` after an in-range
`oled_draw_point`. -/
theorem draw_point_byte (x y dot : Nat) (s : State) (hx : x < 128) (hy : y < 64) (i : Nat) :
    ((oled_draw_point x y dot s).gram x (y / 8)).val.testBit i =
      if i = y % 8 then decide (dot ≠ 0) else (s.gram x (y / 8)).val.testBit i := by
  have hb : y % 8 < 8 := Nat.mod_lt _ (by decide)
  have hv : (s.gram x (y / 8)).val < 256 := (s.gram x (y / 8)).isLt
  have hg : ¬ (x > 127 ∨ y > 63) := by omega
  unfold oled_draw_point
  rw [if_neg hg]
  dsimp only
  rw [temp_eq _ hb]
  by_cases hd : dot ≠ 0
  · rw [if_pos hd]
    simp only [gram_store, and_self, if_true, toByte_val]
    rw [set_bit_testBit _ _ _ hv hb]
    by_cases hi : i = y % 8
    · simp [hi, hd]
    · have : ¬ (y % 8 = i) := fun h => hi h.symm
      simp [hi, this]
  · rw [if_neg hd]
    simp only [gram_store, and_self, if_true, toByte_val]
    rw [clear_bit_testBit _ _ _ hv hb]
    by_cases hi : i = y % 8
    · simp [hi, hd]
    · have : ¬ (y % 8 = i) := fun h => hi h.symm
      simp [hi, this]

/-- Bytes other than the addressed one are not written. -/
theorem draw_point_other (x y dot : Nat) (s : State) (c p : Nat) (h : c ≠ x ∨ p ≠ y / 8) :
    (oled_draw_point x y dot s).gram c p = s.gram c p := by
  have hn : ¬ (c = x ∧ p = y / 8) := by
    rintro ⟨h1, h2⟩
    rcases h with h | h
    · exact h h1
    · exact h h2
  unfold oled_draw_point
  split
  · rfl
  · dsimp only
    split <;> simp [gram_store, hn]

/-- Out of range, `oled_draw_point` returns the state it was given. -/
theorem draw_point_oob (x y dot : Nat) (s : State) (h : 128 ≤ x ∨ 64 ≤ y) :
    oled_draw_point x y dot s = s := by
  have hg : x > 127 ∨ y > 63 := by omega
  unfold oled_draw_point
  rw [if_pos hg]

/-- Pixel-level effect of one `oled_draw_point` call, in or out of range. -/
theorem draw_point_pixel (x y dot : Nat) (s : State) (px py : Nat) :
    pixel (oled_draw_point x y dot s) px py =
      if px = x ∧ py = y ∧ x < 128 ∧ y < 64 then decide (dot ≠ 0) else pixel s px py := by
  by_cases hr : x < 128 ∧ y < 64
  · obtain ⟨hx, hy⟩ := hr
    by_cases hp : px = x ∧ py = y
    · obtain ⟨rfl, rfl⟩ := hp
      have := draw_point_byte px py dot s hx hy (py % 8)
      simp only [if_true] at this
      simp [pixel, this, hx, hy]
    · have hn : ¬ (px = x ∧ py = y ∧ x < 128 ∧ y < 64) := fun h => hp ⟨h.1, h.2.1⟩
      rw [if_neg hn]
      unfold pixel
      by_cases hc : px = x ∧ py / 8 = y / 8
      · obtain ⟨rfl, hpg⟩ := hc
        have hbit : py % 8 ≠ y % 8 := by
          intro hb
          apply hp
          refine ⟨rfl, ?_⟩
          omega
        rw [hpg, draw_point_byte px y dot s hx hy (py % 8), if_neg hbit]
      · have : px ≠ x ∨ py / 8 ≠ y / 8 := by
          by_cases h1 : px = x
          · right; intro h2; exact hc ⟨h1, h2⟩
          · left; exact h1
        rw [draw_point_other x y dot s px (py / 8) this]
  · have hn : ¬ (px = x ∧ py = y ∧ x < 128 ∧ y < 64) := fun h => hr ⟨h.2.2.1, h.2.2.2⟩
    rw [if_neg hn, draw_point_oob x y dot s (by omega)]

/-! ## Loops with a fixed bound -/

theorem forUpTo_zero {σ : Type} (body : Nat → σ → σ) (s : σ) : forUpTo 0 body s = s := rfl

theorem forUpTo_succ {σ : Type} (n : Nat) (body : Nat → σ → σ) (s : σ) :
    forUpTo (n + 1) body s = body n (forUpTo n body s) := by
  simp [forUpTo, List.range_succ, List.foldl_append]

/-! ## Flush -/

theorem refresh_inner (i n : Nat) (s : State) :
    forUpTo n (fun n s => oled_wr_byte (s.gram n i).val OLED_DATA s) s =
      { s with out := s.out ++ (List.range n).map (fun k => ((s.gram k i).val, OLED_DATA)) } := by
  induction n with
  | zero => simp [forUpTo_zero]
  | succ n ih =>
    rw [forUpTo_succ, ih]
    have hv : (s.gram n i).val % 256 = (s.gram n i).val := Nat.mod_eq_of_lt (s.gram n i).isLt
    simp [oled_wr_byte, List.range_succ, hv]

theorem refresh_outer (m : Nat) (s : State) :
    forUpTo m (fun i s =>
      let s := oled_wr_byte (0xb0 + i) OLED_CMD s
      let s := oled_wr_byte 0x00 OLED_CMD s
      let s := oled_wr_byte 0x10 OLED_CMD s
      forUpTo 128 (fun n s => oled_wr_byte (s.gram n i).val OLED_DATA s) s) s =
      { s with out := s.out ++ List.flatMap (List.range m) (fun p =>
          [((0xB0 + p) % 256, OLED_CMD), (0x00, OLED_CMD), (0x10, OLED_CMD)] ++
            (List.range 128).map (fun n => ((s.gram n p).val, OLED_DATA))) } := by
  induction m with
  | zero => simp [forUpTo_zero]
  | succ m ih =>
    rw [forUpTo_succ, ih]
    dsimp only
    rw [refresh_inner]
    simp [oled_wr_byte, List.range_succ, List.flatMap_append]

/-- The whole effect of `oled_refresh_gram`: the framebuffer is kept and the
flush stream is appended to what was sent before. -/
theorem refresh_eq (s : State) :
    oled_refresh_gram s = { s with out := s.out ++ flushStream s.gram } := by
  unfold oled_refresh_gram
  rw [refresh_outer]
  have : ∀ p ∈ List.range 8, (0xB0 + p) % 256 = 0xB0 + p := by
    intro p hp
    rw [List.mem_range] at hp
    omega
  have hfm : (List.range 8).flatMap
      (fun p => [((0xB0 + p) % 256, OLED_CMD), (0x00, OLED_CMD), (0x10, OLED_CMD)] ++
        (List.range 128).map (fun n => ((s.gram n p).val, OLED_DATA))) = flushStream s.gram := by
    unfold flushStream pageStream
    simp [List.range_succ, List.flatMap]
  rw [hfm]

theorem pageStream_length (g : Nat → Nat → Byte) (p : Nat) : (pageStream g p).length = 131 := by
  simp [pageStream]

theorem flushStream_length (g : Nat → Nat → Byte) : (flushStream g).length = 1048 := by
  simp [flushStream, List.range_succ, List.flatMap, pageStream_length]

/-! ## Claims on `oled_draw_point` -/

/-- C1: for an in-range point, after `oled_draw_point(x, y, 1)` the pixel
`(x, y)` reads as set, after `oled_draw_point(x, y, 0)` it reads as clear, and
any non-zero `dot` sets it. -/
theorem C1_draw_point_round_trip (x y : Nat) (s : State) (hx : x < 128) (hy : y < 64) :
    pixel (oled_draw_point x y 1 s) x y = true ∧
    pixel (oled_draw_point x y 0 s) x y = false ∧
    ∀ dot, dot ≠ 0 → pixel (oled_draw_point x y dot s) x y = true := by
  refine ⟨?_, ?_, ?_⟩
  · rw [draw_point_pixel]; simp [hx, hy]
  · rw [draw_point_pixel]; simp [hx, hy]
  · intro dot hd
    rw [draw_point_pixel]; simp [hx, hy, hd]

theorem C1_draw_point_round_trip_witness :
    (5 < 128 ∧ 10 < 64) ∧
    (pixel (oled_draw_point 5 10 1 zeroState) 5 10 = true ∧
     pixel (oled_draw_point 5 10 0 zeroState) 5 10 = false ∧
     ∀ dot, dot ≠ 0 → pixel (oled_draw_point 5 10 dot zeroState) 5 10 = true) :=
  ⟨by decide, C1_draw_point_round_trip 5 10 zeroState (by decide) (by decide)⟩

/-- C2: for `x >= 128` or `y >= 64` (in particular for every such 8-bit pair),
`oled_draw_point` returns the state unchanged: every framebuffer byte is kept
and nothing is emitted. -/
theorem C2_draw_point_out_of_range (x y dot : Nat) (s : State) (h : 128 ≤ x ∨ 64 ≤ y) :
    oled_draw_point x y dot s = s ∧
    (∀ c p, (oled_draw_point x y dot s).gram c p = s.gram c p) ∧
    (oled_draw_point x y dot s).out = s.out := by
  have := draw_point_oob x y dot s h
  exact ⟨this, by rw [this]; intros; rfl, by rw [this]⟩

theorem C2_draw_point_out_of_range_witness :
    (128 ≤ 200 ∨ 64 ≤ 3) ∧
    (oled_draw_point 200 3 1 zeroState = zeroState ∧
     (∀ c p, (oled_draw_point 200 3 1 zeroState).gram c p = zeroState.gram c p) ∧
     (oled_draw_point 200 3 1 zeroState).out = zeroState.out) :=
  ⟨by decide, C2_draw_point_out_of_range 200 3 1 zeroState (by decide)⟩

/-- C3: an in-range `oled_draw_point(x, y, dot)` writes bit `y % 8` of the byte
at column `x`, page `y / 8` and nothing else: every other bit of that byte,
every other byte, every other pixel and the emitted bytes are unchanged. -/
theorem C3_draw_point_frame (x y dot : Nat) (s : State) (hx : x < 128) (hy : y < 64) :
    ((oled_draw_point x y dot s).gram x (y / 8)).val.testBit (y % 8) = decide (dot ≠ 0) ∧
    (∀ b, b ≠ y % 8 →
      ((oled_draw_point x y dot s).gram x (y / 8)).val.testBit b =
        (s.gram x (y / 8)).val.testBit b) ∧
    (∀ c p, c ≠ x ∨ p ≠ y / 8 → (oled_draw_point x y dot s).gram c p = s.gram c p) ∧
    (∀ px py, px ≠ x ∨ py ≠ y → pixel (oled_draw_point x y dot s) px py = pixel s px py) ∧
    (oled_draw_point x y dot s).out = s.out := by
  refine ⟨?_, ?_, ?_, ?_, draw_point_out x y dot s⟩
  · rw [draw_point_byte x y dot s hx hy]; simp
  · intro b hb
    rw [draw_point_byte x y dot s hx hy, if_neg hb]
  · intro c p h
    exact draw_point_other x y dot s c p h
  · intro px py h
    rw [draw_point_pixel]
    have : ¬ (px = x ∧ py = y ∧ x < 128 ∧ y < 64) := by
      rintro ⟨h1, h2, -⟩
      rcases h with h | h
      · exact h h1
      · exact h h2
    rw [if_neg this]

theorem C3_draw_point_frame_witness :
    (7 < 128 ∧ 19 < 64) ∧
    (((oled_draw_point 7 19 1 zeroState).gram 7 (19 / 8)).val.testBit (19 % 8) =
        decide ((1 : Nat) ≠ 0) ∧
     (∀ b, b ≠ 19 % 8 →
      ((oled_draw_point 7 19 1 zeroState).gram 7 (19 / 8)).val.testBit b =
        (zeroState.gram 7 (19 / 8)).val.testBit b) ∧
     (∀ c p, c ≠ 7 ∨ p ≠ 19 / 8 →
        (oled_draw_point 7 19 1 zeroState).gram c p = zeroState.gram c p) ∧
     (∀ px py, px ≠ 7 ∨ py ≠ 19 →
        pixel (oled_draw_point 7 19 1 zeroState) px py = pixel zeroState px py) ∧
     (oled_draw_point 7 19 1 zeroState).out = zeroState.out) :=
  ⟨by decide, C3_draw_point_frame 7 19 1 zeroState (by decide) (by decide)⟩

/-! ## Claim on `oled_refresh_gram` -/

/-- C4: `oled_refresh_gram` keeps the framebuffer and emits exactly 1048 tagged
bytes: for each page `p = 0..7` in increasing order the command bytes
`0xB0 + p`, `0x00`, `0x10` and then the data bytes `g_oled_gram[n][p]` for
`n = 0..127` in increasing order; for the all-zero framebuffer every data byte
is `0x00`. -/
theorem C4_refresh_stream (s : State) :
    (oled_refresh_gram s).out = s.out ++
      (List.range 8).flatMap (fun p =>
        [(0xB0 + p, OLED_CMD), (0x00, OLED_CMD), (0x10, OLED_CMD)] ++
          (List.range 128).map (fun n => ((s.gram n p).val, OLED_DATA))) ∧
    ((List.range 8).flatMap (fun p =>
        [(0xB0 + p, OLED_CMD), (0x00, OLED_CMD), (0x10, OLED_CMD)] ++
          (List.range 128).map (fun n => ((s.gram n p).val, OLED_DATA)))).length
      = 8 * (3 + 128) ∧
    (oled_refresh_gram s).gram = s.gram ∧
    (oled_refresh_gram zeroState).out =
      (List.range 8).flatMap (fun p =>
        [(0xB0 + p, OLED_CMD), (0x00, OLED_CMD), (0x10, OLED_CMD)] ++
          List.replicate 128 (0x00, OLED_DATA)) := by
  have hfs : ∀ g : Nat → Nat → Byte, (List.range 8).flatMap (fun p =>
        [(0xB0 + p, OLED_CMD), (0x00, OLED_CMD), (0x10, OLED_CMD)] ++
          (List.range 128).map (fun n => ((g n p).val, OLED_DATA))) = flushStream g := by
    intro g; rfl
  refine ⟨?_, ?_, ?_, ?_⟩
  · rw [hfs, refresh_eq]
  · rw [hfs, flushStream_length]
  · rw [refresh_eq]
  · rw [refresh_eq]
    show [] ++ flushStream (fun _ _ => 0) = _
    rw [List.nil_append]
    unfold flushStream
    congr 1

/-! ## Rectangle fill -/

/-- With enough fuel and a limit below 255 the inner loop of `oled_fill` ends,
after one call of the callee for each `y` from the start value to `y2`. -/
theorem fill_col_eq {σ : Type} (draw : Nat → Nat → Nat → σ → σ) (x y2 dot : Nat)
    (hy2 : y2 ≤ 254) (fuel y : Nat) (s : σ) (hf : y2 + 1 - y + 1 ≤ fuel) :
    fill_col draw x y2 dot fuel y s =
      some ((List.range' y (y2 + 1 - y)).foldl (fun s yy => draw x yy dot s) s) := by
  induction fuel generalizing y s with
  | zero => omega
  | succ fuel ih =>
    unfold fill_col
    by_cases hy : y ≤ y2
    · rw [if_pos hy]
      have hm : (y + 1) % 256 = y + 1 := Nat.mod_eq_of_lt (by omega)
      have hn : y2 + 1 - y = (y2 + 1 - (y + 1)) + 1 := by omega
      rw [hm, ih (y + 1) (draw x y dot s) (by omega), hn, List.range'_succ]
      simp
    · rw [if_neg hy]
      have hn : y2 + 1 - y = 0 := by omega
      rw [hn]
      rfl

/-- With enough fuel and limits below 255 both loops of `oled_fill` end, after
one call of the callee for each point of the rectangle, column by column. -/
theorem fill_rows_eq {σ : Type} (draw : Nat → Nat → Nat → σ → σ) (y1 x2 y2 dot : Nat)
    (hx2 : x2 ≤ 254) (hy2 : y2 ≤ 254) (fuel x : Nat) (s : σ)
    (hf : (x2 + 1 - x) + (y2 + 1 - y1) + 1 ≤ fuel) :
    fill_rows draw y1 x2 y2 dot fuel x s =
      some ((List.range' x (x2 + 1 - x)).foldl (fun s xx =>
        (List.range' y1 (y2 + 1 - y1)).foldl (fun s yy => draw xx yy dot s) s) s) := by
  induction fuel generalizing x s with
  | zero => omega
  | succ fuel ih =>
    unfold fill_rows
    by_cases hx : x ≤ x2
    · rw [if_pos hx, fill_col_eq draw x y2 dot hy2 (fuel + 1) y1 s (by omega)]
      have hm : (x + 1) % 256 = x + 1 := Nat.mod_eq_of_lt (by omega)
      have hn : x2 + 1 - x = (x2 + 1 - (x + 1)) + 1 := by omega
      dsimp only
      rw [hm, ih (x + 1) _ (by omega), hn, List.range'_succ]
      simp
    · rw [if_neg hx]
      have hn : x2 + 1 - x = 0 := by omega
      rw [hn]
      rfl

/-- Pixels after drawing one column segment with `oled_draw_point`. -/
theorem pixel_draw_col (x dot : Nat) (ys : List Nat) (s : State) (px py : Nat) :
    pixel (ys.foldl (fun s yy => oled_draw_point x yy dot s) s) px py =
      if px = x ∧ py ∈ ys ∧ px < 128 ∧ py < 64 then decide (dot ≠ 0) else pixel s px py := by
  induction ys generalizing s with
  | nil => simp
  | cons y ys ih =>
    rw [List.foldl_cons, ih, draw_point_pixel]
    by_cases h1 : px = x ∧ py ∈ ys ∧ px < 128 ∧ py < 64
    · have h2 : px = x ∧ py ∈ y :: ys ∧ px < 128 ∧ py < 64 :=
        ⟨h1.1, List.mem_cons_of_mem _ h1.2.1, h1.2.2⟩
      rw [if_pos h1, if_pos h2]
    · rw [if_neg h1]
      by_cases h3 : px = x ∧ py = y ∧ x < 128 ∧ y < 64
      · obtain ⟨rfl, rfl, hx, hy⟩ := h3
        have h2 : px = px ∧ py ∈ py :: ys ∧ px < 128 ∧ py < 64 :=
          ⟨rfl, List.mem_cons_self _ _, hx, hy⟩
        rw [if_pos ⟨rfl, rfl, hx, hy⟩, if_pos h2]
      · rw [if_neg h3]
        have h2 : ¬ (px = x ∧ py ∈ y :: ys ∧ px < 128 ∧ py < 64) := by
          rintro ⟨hx, hm, hb1, hb2⟩
          rcases List.mem_cons.mp hm with h | h
          · exact h3 ⟨hx, h, hx ▸ hb1, h ▸ hb2⟩
          · exact h1 ⟨hx, h, hb1, hb2⟩
        rw [if_neg h2]

/-- Pixels after drawing a rectangle column by column with `oled_draw_point`. -/
theorem pixel_draw_rows (dot : Nat) (xs ys : List Nat) (s : State) (px py : Nat) :
    pixel (xs.foldl (fun s xx => ys.foldl (fun s yy => oled_draw_point xx yy dot s) s) s) px py =
      if px ∈ xs ∧ py ∈ ys ∧ px < 128 ∧ py < 64 then decide (dot ≠ 0) else pixel s px py := by
  induction xs generalizing s with
  | nil => simp
  | cons x xs ih =>
    rw [List.foldl_cons, ih, pixel_draw_col]
    by_cases h1 : px ∈ xs ∧ py ∈ ys ∧ px < 128 ∧ py < 64
    · have h2 : px ∈ x :: xs ∧ py ∈ ys ∧ px < 128 ∧ py < 64 :=
        ⟨List.mem_cons_of_mem _ h1.1, h1.2⟩
      rw [if_pos h1, if_pos h2]
    · rw [if_neg h1]
      by_cases h3 : px = x ∧ py ∈ ys ∧ px < 128 ∧ py < 64
      · have h2 : px ∈ x :: xs ∧ py ∈ ys ∧ px < 128 ∧ py < 64 :=
          ⟨h3.1 ▸ List.mem_cons_self _ _, h3.2⟩
        rw [if_pos h3, if_pos h2]
      · rw [if_neg h3]
        have h2 : ¬ (px ∈ x :: xs ∧ py ∈ ys ∧ px < 128 ∧ py < 64) := by
          rintro ⟨hm, hr⟩
          rcases List.mem_cons.mp hm with h | h
          · exact h3 ⟨h, hr⟩
          · exact h1 ⟨h, hr⟩
        rw [if_neg h2]

theorem pixel_refresh (s : State) (px py : Nat) :
    pixel (oled_refresh_gram s) px py = pixel s px py := by
  rw [refresh_eq]
  rfl

/-- The state `oled_fill` returns, for limits below 255 and enough fuel. -/
theorem fill_eq (fuel x1 y1 x2 y2 dot : Nat) (s : State) (hx2 : x2 ≤ 254) (hy2 : y2 ≤ 254)
    (hf : 512 ≤ fuel) :
    oled_fill fuel x1 y1 x2 y2 dot s =
      some (oled_refresh_gram ((List.range' x1 (x2 + 1 - x1)).foldl (fun s xx =>
        (List.range' y1 (y2 + 1 - y1)).foldl (fun s yy => oled_draw_point xx yy dot s) s) s)) := by
  unfold oled_fill
  rw [fill_rows_eq oled_draw_point y1 x2 y2 dot hx2 hy2 fuel x1 s (by omega)]

/-- C5: for `x1 <= x2 <= 127` and `y1 <= y2 <= 63`, `oled_fill` returns, and in
the state it returns a pixel `(x, y)` equals `dot != 0` when it lies in the
inclusive rectangle and keeps its previous value otherwise. -/
theorem C5_fill_rectangle (fuel x1 y1 x2 y2 dot : Nat) (s : State)
    (hx : x1 ≤ x2) (hx2 : x2 ≤ 127) (hy : y1 ≤ y2) (hy2 : y2 ≤ 63) (hf : 512 ≤ fuel) :
    ∃ s', oled_fill fuel x1 y1 x2 y2 dot s = some s' ∧
      ∀ x y, pixel s' x y =
        if x1 ≤ x ∧ x ≤ x2 ∧ y1 ≤ y ∧ y ≤ y2 then decide (dot ≠ 0) else pixel s x y := by
  refine ⟨_, fill_eq fuel x1 y1 x2 y2 dot s (by omega) (by omega) hf, ?_⟩
  intro x y
  rw [pixel_refresh, pixel_draw_rows]
  have hiff : (x ∈ List.range' x1 (x2 + 1 - x1) ∧ y ∈ List.range' y1 (y2 + 1 - y1) ∧
      x < 128 ∧ y < 64) ↔ (x1 ≤ x ∧ x ≤ x2 ∧ y1 ≤ y ∧ y ≤ y2) := by
    simp only [List.mem_range'_1]
    omega
  by_cases h : x1 ≤ x ∧ x ≤ x2 ∧ y1 ≤ y ∧ y ≤ y2
  · rw [if_pos h, if_pos (hiff.mpr h)]
  · rw [if_neg h, if_neg (fun h' => h (hiff.mp h'))]

set_option maxRecDepth 100000 in
theorem C5_fill_rectangle_witness :
    (10 ≤ 20 ∧ 20 ≤ 127 ∧ 10 ≤ 20 ∧ 20 ≤ 63 ∧ 512 ≤ 512) ∧
    ∃ s', oled_fill 512 10 10 20 20 1 zeroState = some s' ∧ litPixels s' = 121 ∧
      ∀ x y, pixel s' x y = decide (10 ≤ x ∧ x ≤ 20 ∧ 10 ≤ y ∧ y ≤ 20) := by
  refine ⟨by decide, ?_⟩
  obtain ⟨s', h1, h2⟩ := C5_fill_rectangle 512 10 10 20 20 1 zeroState
    (by decide) (by decide) (by decide) (by decide) (by decide)
  have hz : ∀ x y, pixel zeroState x y = false := by
    intro x y
    simp [pixel, zeroState]
  have h3 : ∀ x y, pixel s' x y = decide (10 ≤ x ∧ x ≤ 20 ∧ 10 ≤ y ∧ y ≤ 20) := by
    intro x y
    rw [h2, hz]
    by_cases h : 10 ≤ x ∧ x ≤ 20 ∧ 10 ≤ y ∧ y ≤ 20
    · rw [if_pos h]; simp [h]
    · rw [if_neg h]; simp [h]
  refine ⟨s', h1, ?_, h3⟩
  have h4 : (fun x => (List.range 64).countP (fun y => pixel s' x y)) =
      (fun x => (List.range 64).countP
        (fun y => decide (10 ≤ x ∧ x ≤ 20 ∧ 10 ≤ y ∧ y ≤ 20))) := by
    funext x
    congr 1
    funext y
    exact h3 x y
  unfold litPixels
  rw [h4]
  decide

/-! ## Number rendering -/

theorem oled_pow_ten (n : Nat) (h : n ≤ 9) : oled_pow 10 n = 10 ^ n := by
  interval_cases n <;> decide

theorem foldl_recordChar (l init : List CharCall) :
    l.foldl (fun acc c => CharCall.run recordChar c acc) init = init ++ l := by
  induction l generalizing init with
  | nil => simp
  | cons c l ih =>
    rw [List.foldl_cons, ih]
    simp [CharCall.run, recordChar]

/-- Loop invariant of `oled_show_num`: from position `t` with `rem` digits left,
the loop makes the calls of positions `t .. t + rem - 1`.  While digits are
left, `enshow` is zero exactly when all earlier digits were zero. -/
theorem show_num_loop_eq {σ : Type} (show_char : Nat → Nat → Nat → Nat → Nat → σ → σ)
    (x y num len size : Nat) (hlen : len ≤ 10) (rem t enshow : Nat) (s : σ)
    (ht : t + rem = len)
    (hen : 0 < rem → (enshow = 0 ↔ ∀ i, i < t → numDigit num len i = 0)) :
    show_num_loop show_char x y num len size rem t enshow s =
      some (((List.range' t rem).map (fun t =>
        ({ x := (x + (size / 2) * t) % 256, y := y, chr := numChar num len t,
           size := size, mode := 1 } : CharCall))).foldl
        (fun s c => CharCall.run show_char c s) s) := by
  induction rem generalizing t enshow s with
  | zero => rfl
  | succ rem ih =>
    have hen0 := hen (Nat.succ_pos _)
    have hp : oled_pow 10 ((len - t - 1) % 256) = 10 ^ (len - 1 - t) := by
      have h1 : (len - t - 1) % 256 = len - 1 - t := by omega
      rw [h1, oled_pow_ten _ (by omega)]
    have hp0 : ¬ (10 ^ (len - 1 - t) = 0) := by positivity
    have hd : (num / 10 ^ (len - 1 - t)) % 10 % 256 = numDigit num len t := by
      unfold numDigit
      omega
    unfold show_num_loop
    simp only [hp, hd, if_neg hp0]
    rw [List.range'_succ, List.map_cons, List.foldl_cons]
    by_cases hc : enshow = 0 ∧ t < len - 1
    · rw [if_pos hc]
      have hall := hen0.mp hc.1
      by_cases hz : numDigit num len t = 0
      · rw [if_pos hz]
        have hch : numChar num len t = 32 := by
          unfold numChar
          rw [if_pos]
          refine ⟨hc.2, ?_⟩
          intro i hi
          rcases Nat.lt_or_eq_of_le hi with h | h
          · exact hall i h
          · rw [h]; exact hz
        rw [ih (t + 1) enshow _ (by omega)]
        · simp [CharCall.run, hch]
        · intro _
          constructor
          · intro _ i hi
            rcases Nat.lt_or_eq_of_le (Nat.lt_succ_iff.mp hi) with h | h
            · exact hall i h
            · rw [h]; exact hz
          · intro _; exact hc.1
      · rw [if_neg hz]
        have hch : numChar num len t = 48 + numDigit num len t := by
          unfold numChar
          rw [if_neg]
          rintro ⟨-, h⟩
          exact hz (h t (Nat.le_refl _))
        have hm : (numDigit num len t + 48) % 256 = 48 + numDigit num len t := by
          have : numDigit num len t < 10 := Nat.mod_lt _ (by decide)
          omega
        rw [ih (t + 1) 1 _ (by omega)]
        · simp [CharCall.run, hch, hm]
        · intro _
          constructor
          · intro h; exact absurd h (by decide)
          · intro h; exact absurd (h t (Nat.lt_succ_self _)) hz
    · rw [if_neg hc]
      have hch : numChar num len t = 48 + numDigit num len t := by
        unfold numChar
        rw [if_neg]
        rintro ⟨h1, h2⟩
        apply hc
        refine ⟨hen0.mpr ?_, h1⟩
        intro i hi
        exact h2 i (Nat.le_of_lt hi)
      have hm : (numDigit num len t + 48) % 256 = 48 + numDigit num len t := by
        have : numDigit num len t < 10 := Nat.mod_lt _ (by decide)
        omega
      rw [ih (t + 1) enshow _ (by omega)]
      · simp [CharCall.run, hch, hm]
      · intro hr
        have hne : enshow ≠ 0 := by
          intro h0
          apply hc
          exact ⟨h0, by omega⟩
        constructor
        · intro h; exact absurd h hne
        · intro h
          exfalso
          apply hne
          apply hen0.mpr
          intro i hi
          exact h i (Nat.lt_succ_of_lt hi)

theorem show_num_with_eq {σ : Type} (show_char : Nat → Nat → Nat → Nat → Nat → σ → σ)
    (x y num len size : Nat) (hlen : len ≤ 10) (s : σ) :
    oled_show_num_with show_char x y num len size s =
      some ((numCalls x y num len size).foldl (fun s c => CharCall.run show_char c s) s) := by
  unfold oled_show_num_with numCalls
  rw [show_num_loop_eq show_char x y num len size hlen len 0 0 s (by omega)
    (by intro _; simp), List.range_eq_range']

/-- C6: for a digit count `len <= 10` (so in particular `1 <= len <= 10`),
`oled_show_num` returns after exactly `len` calls of `oled_show_char`, in
order `t = 0 .. len-1`, the `t`-th at column `(x + (size/2)*t) mod 256`, row
`y`, mode 1, with the character `c_t` (blank for a leading zero before the
last position, the digit otherwise).  This holds for whatever the callee does,
so for `oled_show_char` itself and for a callee that records its calls.  For
`num = 0` the characters are `len - 1` blanks and then `'0'`. -/
theorem C6_show_num_calls {σ : Type} (show_char : Nat → Nat → Nat → Nat → Nat → σ → σ)
    (F : Font) (x y num len size : Nat) (s : σ) (st : State) (hlen : len ≤ 10) :
    oled_show_num_with show_char x y num len size s =
      some ((numCalls x y num len size).foldl (fun s c => CharCall.run show_char c s) s) ∧
    oled_show_num F x y num len size st =
      some ((numCalls x y num len size).foldl
        (fun s c => oled_show_char F c.x c.y c.chr c.size c.mode s) st) ∧
    oled_show_num_with recordChar x y num len size [] = some (numCalls x y num len size) ∧
    (numCalls x y num len size).length = len ∧
    (∀ t (h : t < (numCalls x y num len size).length),
      (numCalls x y num len size)[t] =
        { x := (x + (size / 2) * t) % 256, y := y, chr := numChar num len t,
          size := size, mode := 1 }) ∧
    (∀ t, numChar 0 len t = if t < len - 1 then 32 else 48) := by
  refine ⟨show_num_with_eq show_char x y num len size hlen s, ?_, ?_, ?_, ?_, ?_⟩
  · exact show_num_with_eq (oled_show_char F) x y num len size hlen st
  · rw [show_num_with_eq recordChar x y num len size hlen [], foldl_recordChar]
    rfl
  · simp [numCalls]
  · intro t h
    simp [numCalls]
  · intro t
    have hd : ∀ i, numDigit 0 len i = 0 := by
      intro i
      simp [numDigit]
    unfold numChar
    by_cases h : t < len - 1
    · rw [if_pos ⟨h, fun i _ => hd i⟩, if_pos h]
    · rw [if_neg (fun h' => h h'.1), if_neg h, hd]

theorem C6_show_num_calls_witness :
    3 ≤ 10 ∧
    oled_show_num_with recordChar 0 0 7 3 16 [] =
      some [{ x := 0, y := 0, chr := 32, size := 16, mode := 1 },
            { x := 8, y := 0, chr := 32, size := 16, mode := 1 },
            { x := 16, y := 0, chr := 55, size := 16, mode := 1 }] :=
  ⟨by decide,
   (C6_show_num_calls recordChar ⟨fun _ _ => 0, fun _ _ => 0, fun _ _ => 0⟩
      0 0 7 3 16 [] zeroState (by decide)).2.2.1.trans (by decide)⟩

/-! ## Glyph traversal -/

theorem and_two_pow_eq (a n : Nat) : a &&& 2 ^ n = if a.testBit n then 2 ^ n else 0 := by
  apply Nat.eq_of_testBit_eq
  intro i
  rw [Nat.testBit_and]
  by_cases hb : a.testBit n
  · rw [if_pos hb]
    by_cases hi : n = i
    · subst hi; simp [hb]
    · simp [Nat.testBit_two_pow, hi]
  · rw [if_neg hb]
    by_cases hi : n = i
    · subst hi; simp [hb]
    · simp [Nat.testBit_two_pow, hi]

/-- The test `temp & 0x80` reads bit 7. -/
theorem and_msb (a : Nat) : (a &&& 0x80 ≠ 0) ↔ a.testBit 7 = true := by
  have h128 : (0x80 : Nat) = 2 ^ 7 := by norm_num
  rw [h128, and_two_pow_eq]
  by_cases hb : a.testBit 7
  · rw [if_pos hb]; simp [hb]
  · rw [if_neg hb]; simp [hb]

/-- After `j` shifts the tested bit is bit `7 - j` of the glyph byte. -/
theorem msb_shift (g j : Nat) (hj : j < 8) :
    ((((g % 256) <<< j) % 256) &&& 0x80 ≠ 0) ↔ g.testBit (7 - j) = true := by
  rw [and_msb]
  have h256 : (256 : Nat) = 2 ^ 8 := by norm_num
  rw [h256, Nat.testBit_mod_two_pow, Nat.testBit_shiftLeft, Nat.testBit_mod_two_pow]
  have h1 : 7 - j < 8 := by omega
  have h2 : 7 ≥ j := by omega
  simp [h1, h2]

theorem shift_step (temp j : Nat) :
    (((temp <<< 1) % 256) <<< j) % 256 = (temp <<< (j + 1)) % 256 := by
  rw [Nat.shiftLeft_eq, Nat.shiftLeft_eq, Nat.shiftLeft_eq, Nat.mod_mul_mod, Nat.pow_succ]
  congr 1
  ring

theorem drawList_nil (s : State) : drawList [] s = s := rfl

theorem drawList_cons (p : Nat × Nat × Nat) (ps : List (Nat × Nat × Nat)) (s : State) :
    drawList (p :: ps) s = drawList ps (oled_draw_point p.1 p.2.1 p.2.2 s) := rfl

theorem drawList_append (ps qs : List (Nat × Nat × Nat)) (s : State) :
    drawList (ps ++ qs) s = drawList qs (drawList ps s) := by
  simp [drawList, List.foldl_append]

theorem show_char_bits_step (size mode y0 rem x y temp : Nat) (s : State) :
    show_char_bits size mode y0 (rem + 1) x y temp s =
      if (((y + 1) % 256 : Nat) : Int) - (y0 : Int) = (size : Int) then
        ((x + 1) % 256, y0, oled_draw_point x y (bitDot mode temp) s)
      else show_char_bits size mode y0 rem x ((y + 1) % 256) ((temp <<< 1) % 256)
        (oled_draw_point x y (bitDot mode temp) s) := by
  rw [show_char_bits]
  by_cases h : temp &&& 0x80 ≠ 0
  · simp only [bitDot, if_pos h]
  · simp only [bitDot, if_neg h]

/-- The inner loop of `oled_show_char`, started at row offset `r` of a cell
that lies on rows below 256: it draws the next bits of the byte one row apart
until the byte or the cell column is exhausted. -/
theorem show_char_bits_eq (size mode y0 : Nat) (hy : y0 + size ≤ 255) (rem r x temp : Nat)
    (s : State) (hr : r < size) (hx : x < 255) (ht : temp < 256) :
    show_char_bits size mode y0 rem x (y0 + r) temp s =
      (if size ≤ r + rem then x + 1 else x,
       if size ≤ r + rem then y0 else y0 + r + rem,
       drawList ((List.range (min rem (size - r))).map
         (fun j => (x, y0 + r + j, bitDot mode ((temp <<< j) % 256)))) s) := by
  induction rem generalizing r temp s with
  | zero =>
    have h1 : ¬ size ≤ r + 0 := by omega
    rw [if_neg h1, if_neg h1]
    simp [show_char_bits, drawList]
  | succ rem ih =>
    rw [show_char_bits_step]
    have hm : (y0 + r + 1) % 256 = y0 + r + 1 := Nat.mod_eq_of_lt (by omega)
    rw [hm]
    by_cases hlast : r + 1 = size
    · have hc : ((y0 + r + 1 : Nat) : Int) - (y0 : Int) = (size : Int) := by omega
      rw [if_pos hc]
      have h1 : size ≤ r + (rem + 1) := by omega
      have h2 : min (rem + 1) (size - r) = 1 := by omega
      have h3 : (x + 1) % 256 = x + 1 := Nat.mod_eq_of_lt (by omega)
      rw [if_pos h1, if_pos h1, h2, h3, show List.range 1 = [0] from rfl]
      simp [drawList, Nat.mod_eq_of_lt ht]
    · have hc : ¬ (((y0 + r + 1 : Nat) : Int) - (y0 : Int) = (size : Int)) := by omega
      rw [if_neg hc]
      have hih := ih (r + 1) ((temp <<< 1) % 256)
        (oled_draw_point x (y0 + r) (bitDot mode temp) s) (by omega)
        (Nat.mod_lt _ (by decide))
      have h0 : y0 + r + 1 = y0 + (r + 1) := by omega
      rw [h0, hih]
      have h2 : min (rem + 1) (size - r) = min rem (size - (r + 1)) + 1 := by omega
      have h4 : r + 1 + rem = r + (rem + 1) := by omega
      rw [h2, List.range_succ_eq_map, List.map_cons, List.map_map, drawList_cons, h4]
      have hf : ((fun j => (x, y0 + r + j, bitDot mode ((temp <<< j) % 256))) ∘ Nat.succ) =
          (fun j => (x, y0 + (r + 1) + j, bitDot mode ((((temp <<< 1) % 256) <<< j) % 256))) := by
        funext j
        simp only [Function.comp, Nat.succ_eq_add_one, shift_step]
        have : y0 + r + (j + 1) = y0 + (r + 1) + j := by omega
        rw [this]
      rw [hf]
      by_cases h5 : size ≤ r + (rem + 1)
      · simp only [if_pos h5, Nat.shiftLeft_zero, Nat.add_zero, Nat.mod_eq_of_lt ht]
      · have h6 : y0 + (r + 1) + rem = y0 + r + (rem + 1) := by omega
        simp only [if_neg h5, h6, Nat.shiftLeft_zero, Nat.add_zero, Nat.mod_eq_of_lt ht]

/-- State of the outer loop of `oled_show_char` after `t` glyph bytes, for the
three fonts and a cell that lies on the screen: the running column and row and
the points drawn so far. -/
theorem show_char_outer_eq (pfont : Nat → Nat) (size k mode x y0 : Nat)
    (hsz : (size = 12 ∧ k = 2) ∨ (size = 16 ∧ k = 2) ∨ (size = 24 ∧ k = 3))
    (hx : x + size / 2 ≤ 128) (hy : y0 + size ≤ 64) (t : Nat) (ht : t ≤ k * (size / 2))
    (s : State) :
    forUpTo t (fun t (st : Nat × Nat × State) =>
        show_char_bits size mode y0 8 st.1 st.2.1 (pfont t % 256) st.2.2) (x, y0, s) =
      (x + t / k, y0 + 8 * (t % k),
        drawList ((List.range t).flatMap (bytePoints pfont size k mode x y0)) s) := by
  induction t with
  | zero =>
    rw [forUpTo_zero]
    simp [drawList]
  | succ t ih =>
    rw [forUpTo_succ, ih (by omega)]
    dsimp only
    have hr : 8 * (t % k) < size := by
      rcases hsz with ⟨rfl, rfl⟩ | ⟨rfl, rfl⟩ | ⟨rfl, rfl⟩ <;> omega
    have hxx : x + t / k < 255 := by
      rcases hsz with ⟨rfl, rfl⟩ | ⟨rfl, rfl⟩ | ⟨rfl, rfl⟩ <;> omega
    rw [show_char_bits_eq size mode y0 (by omega) 8 (8 * (t % k)) (x + t / k) (pfont t % 256)
      _ hr hxx (Nat.mod_lt _ (by decide))]
    rw [List.range_succ, List.flatMap_append, drawList_append]
    refine Prod.ext ?_ (Prod.ext ?_ ?_)
    · dsimp only
      rcases hsz with ⟨rfl, rfl⟩ | ⟨rfl, rfl⟩ | ⟨rfl, rfl⟩ <;> split <;> omega
    · dsimp only
      rcases hsz with ⟨rfl, rfl⟩ | ⟨rfl, rfl⟩ | ⟨rfl, rfl⟩ <;> split <;> omega
    · dsimp only
      simp [List.flatMap, bytePoints]

/-- For a supported size, a printable character and a cell on the screen,
`oled_show_char` is the sequence of `oled_draw_point` calls listed by
`bytePoints`, byte after byte. -/
theorem show_char_eq (F : Font) (x y chr size mode : Nat) (s : State)
    (hsz : size = 12 ∨ size = 16 ∨ size = 24) (hc : 32 ≤ chr ∧ chr ≤ 126)
    (hx : x + size / 2 ≤ 128) (hy : y + size ≤ 64) :
    oled_show_char F x y chr size mode s =
      drawList ((List.range (colBytes size * (size / 2))).flatMap
        (bytePoints (glyphByte F size chr) size (colBytes size) mode x y)) s := by
  have hchr : (chr + 256 - 32) % 256 = chr - 32 := by omega
  unfold oled_show_char
  dsimp only
  rw [hchr]
  rcases hsz with rfl | rfl | rfl
  · have hk : colBytes 12 = 2 := by decide
    have hg : glyphByte F 12 chr = F.oled_asc2_1206 (chr - 32) := by
      funext t; simp [glyphByte]
    rw [if_pos rfl, hk, hg]
    have hcs : (((12 : Nat) / 8 + (if (12 : Nat) % 8 ≠ 0 then 1 else 0)) * (12 / 2)) % 256 =
        2 * (12 / 2) := by decide
    unfold show_char_glyph
    rw [hcs, show_char_outer_eq _ 12 2 mode x y (Or.inl ⟨rfl, rfl⟩) hx hy _ (Nat.le_refl _)]
  · have hk : colBytes 16 = 2 := by decide
    have hg : glyphByte F 16 chr = F.oled_asc2_1608 (chr - 32) := by
      funext t; simp [glyphByte]
    rw [if_neg (by decide), if_pos rfl, hk, hg]
    have hcs : (((16 : Nat) / 8 + (if (16 : Nat) % 8 ≠ 0 then 1 else 0)) * (16 / 2)) % 256 =
        2 * (16 / 2) := by decide
    unfold show_char_glyph
    rw [hcs, show_char_outer_eq _ 16 2 mode x y (Or.inr (Or.inl ⟨rfl, rfl⟩)) hx hy _ (Nat.le_refl _)]
  · have hk : colBytes 24 = 3 := by decide
    have hg : glyphByte F 24 chr = F.oled_asc2_2412 (chr - 32) := by
      funext t; simp [glyphByte]
    rw [if_neg (by decide), if_neg (by decide), if_pos rfl, hk, hg]
    have hcs : (((24 : Nat) / 8 + (if (24 : Nat) % 8 ≠ 0 then 1 else 0)) * (24 / 2)) % 256 =
        3 * (24 / 2) := by decide
    unfold show_char_glyph
    rw [hcs, show_char_outer_eq _ 24 3 mode x y (Or.inr (Or.inr ⟨rfl, rfl⟩)) hx hy _ (Nat.le_refl _)]

theorem drawList_out (pts : List (Nat × Nat × Nat)) (s : State) :
    (drawList pts s).out = s.out := by
  induction pts generalizing s with
  | nil => rfl
  | cons p ps ih => rw [drawList_cons, ih, draw_point_out]

/-- A pixel that no listed point addresses keeps its value. -/
theorem drawList_pixel_not_mem (pts : List (Nat × Nat × Nat)) (s : State) (px py : Nat)
    (h : ∀ p ∈ pts, ¬ (p.1 = px ∧ p.2.1 = py)) :
    pixel (drawList pts s) px py = pixel s px py := by
  induction pts generalizing s with
  | nil => rfl
  | cons p ps ih =>
    rw [drawList_cons, ih _ (fun q hq => h q (List.mem_cons_of_mem _ hq)), draw_point_pixel]
    have hp := h p (List.mem_cons_self _ _)
    have : ¬ (px = p.1 ∧ py = p.2.1 ∧ p.1 < 128 ∧ p.2.1 < 64) :=
      fun h' => hp ⟨h'.1.symm, h'.2.1.symm⟩
    rw [if_neg this]

/-- An on-screen pixel addressed by a listed point, all points addressing it
agreeing on `dot != 0`, ends with that value. -/
theorem drawList_pixel_mem (pts : List (Nat × Nat × Nat)) (s : State) (px py : Nat) (b : Bool)
    (hpx : px < 128) (hpy : py < 64)
    (hex : ∃ p ∈ pts, p.1 = px ∧ p.2.1 = py)
    (hall : ∀ p ∈ pts, p.1 = px → p.2.1 = py → decide (p.2.2 ≠ 0) = b) :
    pixel (drawList pts s) px py = b := by
  induction pts generalizing s with
  | nil =>
    obtain ⟨p, hp, -⟩ := hex
    exact absurd hp (List.not_mem_nil _)
  | cons p ps ih =>
    rw [drawList_cons]
    by_cases hps : ∃ q ∈ ps, q.1 = px ∧ q.2.1 = py
    · exact ih _ hps (fun q hq => hall q (List.mem_cons_of_mem _ hq))
    · have hnone : ∀ q ∈ ps, ¬ (q.1 = px ∧ q.2.1 = py) := fun q hq hh => hps ⟨q, hq, hh⟩
      rw [drawList_pixel_not_mem ps _ px py hnone, draw_point_pixel]
      obtain ⟨q, hq, hq1, hq2⟩ := hex
      rcases List.mem_cons.mp hq with h | h
      · subst h
        rw [if_pos ⟨hq1.symm, hq2.symm, hq1 ▸ hpx, hq2 ▸ hpy⟩]
        exact hall q (List.mem_cons_self _ _) hq1 hq2
      · exact absurd ⟨hq1, hq2⟩ (hnone q h)

/-- Membership in the list of points drawn for a glyph. -/
theorem mem_glyph_points (pfont : Nat → Nat) (size k mode x y0 n : Nat) (p : Nat × Nat × Nat) :
    p ∈ (List.range n).flatMap (bytePoints pfont size k mode x y0) ↔
      ∃ t j, t < n ∧ j < 8 ∧ 8 * (t % k) + j < size ∧
        p = (x + t / k, y0 + 8 * (t % k) + j, bitDot mode (((pfont t % 256) <<< j) % 256)) := by
  simp only [List.mem_flatMap, List.mem_range, bytePoints, List.mem_map]
  constructor
  · rintro ⟨t, ht, j, hj, rfl⟩
    exact ⟨t, j, ht, by omega, by omega, rfl⟩
  · rintro ⟨t, j, ht, hj, hjs, rfl⟩
    exact ⟨t, ht, j, by omega, rfl⟩

/-- The value painted for a glyph bit. -/
theorem bitDot_ne_zero (mode g j : Nat) (hj : j < 8) :
    decide (bitDot mode (((g % 256) <<< j) % 256) ≠ 0) = (g.testBit (7 - j) == decide (mode ≠ 0)) := by
  unfold bitDot
  by_cases hb : g.testBit (7 - j) = true
  · rw [if_pos ((msb_shift g j hj).mpr hb), hb]
    by_cases hm : mode = 0 <;> simp [hm]
  · rw [if_neg (fun h => hb ((msb_shift g j hj).mp h))]
    have hb' : g.testBit (7 - j) = false := by simpa using hb
    rw [hb']
    by_cases hm : mode = 0 <;> simp [hm]

/-- Pixels after `oled_show_char`, byte by byte: bit `7 - j` of glyph byte `t`
lands at column `x + t / k`, row `y + 8 * (t % k) + j` when that row is inside
the cell; pixels outside the cell keep their value; nothing is emitted. -/
theorem show_char_pixels (F : Font) (x y chr size mode : Nat) (s : State)
    (hsz : size = 12 ∨ size = 16 ∨ size = 24) (hc : 32 ≤ chr ∧ chr ≤ 126)
    (hx : x + size / 2 ≤ 128) (hy : y + size ≤ 64) :
    (∀ t j, t < colBytes size * (size / 2) → j < 8 → 8 * (t % colBytes size) + j < size →
      pixel (oled_show_char F x y chr size mode s)
          (x + t / colBytes size) (y + 8 * (t % colBytes size) + j) =
        ((glyphByte F size chr t).testBit (7 - j) == decide (mode ≠ 0))) ∧
    (∀ px py, ¬ (x ≤ px ∧ px < x + size / 2 ∧ y ≤ py ∧ py < y + size) →
      pixel (oled_show_char F x y chr size mode s) px py = pixel s px py) ∧
    (oled_show_char F x y chr size mode s).out = s.out := by
  rw [show_char_eq F x y chr size mode s hsz hc hx hy]
  have hk : (size = 12 ∧ colBytes size = 2) ∨ (size = 16 ∧ colBytes size = 2) ∨
      (size = 24 ∧ colBytes size = 3) := by
    rcases hsz with rfl | rfl | rfl
    · exact Or.inl ⟨rfl, by decide⟩
    · exact Or.inr (Or.inl ⟨rfl, by decide⟩)
    · exact Or.inr (Or.inr ⟨rfl, by decide⟩)
  generalize colBytes size = k at hk ⊢
  refine ⟨?_, ?_, drawList_out _ _⟩
  · intro t j ht hj hjs
    apply drawList_pixel_mem
    · rcases hk with ⟨rfl, rfl⟩ | ⟨rfl, rfl⟩ | ⟨rfl, rfl⟩ <;> omega
    · omega
    · refine ⟨_, (mem_glyph_points _ _ _ _ _ _ _ _).mpr ⟨t, j, ht, hj, hjs, rfl⟩, rfl, rfl⟩
    · intro p hp h1 h2
      obtain ⟨t', j', ht', hj', hjs', rfl⟩ := (mem_glyph_points _ _ _ _ _ _ _ _).mp hp
      dsimp only at h1 h2
      have htt : t' = t ∧ j' = j := by
        rcases hk with ⟨rfl, rfl⟩ | ⟨rfl, rfl⟩ | ⟨rfl, rfl⟩ <;> omega
      obtain ⟨rfl, rfl⟩ := htt
      exact bitDot_ne_zero mode _ _ hj
  · intro px py hout
    apply drawList_pixel_not_mem
    intro p hp hh
    obtain ⟨t', j', ht', hj', hjs', rfl⟩ := (mem_glyph_points _ _ _ _ _ _ _ _).mp hp
    dsimp only at hh
    apply hout
    rcases hk with ⟨rfl, rfl⟩ | ⟨rfl, rfl⟩ | ⟨rfl, rfl⟩ <;> omega

/-! ## Claims on `oled_show_char` -/

/-- C7: for a supported size, a printable character and a cell that lies on
the screen (`x <= 128 - size/2`, `y <= 64 - size`), after `oled_show_char`
every pixel `(x+c, y+r)` of the `size/2`-by-`size` cell is set iff (bit
`7 - r mod 8` of glyph byte `c * ceil(size/8) + r / 8` is 1) equals
(`mode != 0`), whatever the framebuffer held; every pixel outside the cell is
unchanged; and mode 0 gives, inside the cell, the complement of mode 1. -/
theorem C7_show_char_cell (F : Font) (x y chr size mode : Nat) (s : State)
    (hsz : size = 12 ∨ size = 16 ∨ size = 24) (hc : 32 ≤ chr ∧ chr ≤ 126)
    (hx : x ≤ 128 - size / 2) (hy : y ≤ 64 - size) :
    (∀ c r, c < size / 2 → r < size →
      pixel (oled_show_char F x y chr size mode s) (x + c) (y + r) =
        ((glyphByte F size chr (c * colBytes size + r / 8)).testBit (7 - r % 8)
          == decide (mode ≠ 0))) ∧
    (∀ px py, ¬ (x ≤ px ∧ px < x + size / 2 ∧ y ≤ py ∧ py < y + size) →
      pixel (oled_show_char F x y chr size mode s) px py = pixel s px py) ∧
    (∀ (s2 : State) c r, c < size / 2 → r < size →
      pixel (oled_show_char F x y chr size 0 s) (x + c) (y + r) =
        !pixel (oled_show_char F x y chr size 1 s2) (x + c) (y + r)) := by
  have hx' : x + size / 2 ≤ 128 := by rcases hsz with rfl | rfl | rfl <;> omega
  have hy' : y + size ≤ 64 := by rcases hsz with rfl | rfl | rfl <;> omega
  have hk : (size = 12 ∧ colBytes size = 2) ∨ (size = 16 ∧ colBytes size = 2) ∨
      (size = 24 ∧ colBytes size = 3) := by
    rcases hsz with rfl | rfl | rfl
    · exact Or.inl ⟨rfl, by decide⟩
    · exact Or.inr (Or.inl ⟨rfl, by decide⟩)
    · exact Or.inr (Or.inr ⟨rfl, by decide⟩)
  have hcell : ∀ (m : Nat) (s : State) c r, c < size / 2 → r < size →
      pixel (oled_show_char F x y chr size m s) (x + c) (y + r) =
        ((glyphByte F size chr (c * colBytes size + r / 8)).testBit (7 - r % 8)
          == decide (m ≠ 0)) := by
    intro m s c r hcc hr
    have h := (show_char_pixels F x y chr size m s hsz hc hx' hy').1
      (c * colBytes size + r / 8) (r % 8)
    generalize colBytes size = k at hk h ⊢
    have e1 : x + (c * k + r / 8) / k = x + c := by
      rcases hk with ⟨rfl, rfl⟩ | ⟨rfl, rfl⟩ | ⟨rfl, rfl⟩ <;> omega
    have e2 : y + 8 * ((c * k + r / 8) % k) + r % 8 = y + r := by
      rcases hk with ⟨rfl, rfl⟩ | ⟨rfl, rfl⟩ | ⟨rfl, rfl⟩ <;> omega
    rw [e1, e2] at h
    apply h
    · rcases hk with ⟨rfl, rfl⟩ | ⟨rfl, rfl⟩ | ⟨rfl, rfl⟩ <;> omega
    · omega
    · rcases hk with ⟨rfl, rfl⟩ | ⟨rfl, rfl⟩ | ⟨rfl, rfl⟩ <;> omega
  refine ⟨hcell mode s, (show_char_pixels F x y chr size mode s hsz hc hx' hy').2.1, ?_⟩
  intro s2 c r hcc hr
  rw [hcell 0 s c r hcc hr, hcell 1 s2 c r hcc hr]
  cases (glyphByte F size chr (c * colBytes size + r / 8)).testBit (7 - r % 8) <;> decide

set_option maxRecDepth 100000 in
theorem C7_show_char_cell_witness :
    ((12 = 12 ∨ 12 = 16 ∨ 12 = 24) ∧ (32 ≤ 65 ∧ 65 ≤ 126) ∧ 3 ≤ 128 - 12 / 2 ∧
      5 ≤ 64 - 12) ∧
    pixel (oled_show_char probeFont 3 5 65 12 1 zeroState) (3 + 0) (5 + 8) = true ∧
    pixel (oled_show_char probeFont 3 5 65 12 1 zeroState) (3 + 1) (5 + 0) = false :=
  ⟨by decide,
   ((C7_show_char_cell probeFont 3 5 65 12 1 zeroState (by decide) (by decide) (by decide)
      (by decide)).1 0 8 (by decide) (by decide)).trans (by decide),
   ((C7_show_char_cell probeFont 3 5 65 12 1 zeroState (by decide) (by decide) (by decide)
      (by decide)).1 1 0 (by decide) (by decide)).trans (by decide)⟩

/-- C8, the formula as written fails for size 12: with `size / 8 = 1` it sends
bit 7 of glyph byte 1 to pixel `(x + 1, y0)`, but the code paints it at
`(x, y0 + 8)`; with a glyph whose only set bit is that one, pixel `(x + 1, y0)`
ends clear. -/
theorem C8_traversal_formula_counterexample :
    pixel (oled_show_char probeFont 0 0 65 12 1 zeroState)
        (0 + 1 / (12 / 8)) (0 + (1 % (12 / 8)) * 8 + 0) ≠
      ((glyphByte probeFont 12 65 1).testBit (7 - 0) == decide ((1 : Nat) ≠ 0)) ∧
    pixel (oled_show_char probeFont 0 0 65 12 1 zeroState) 0 8 = true := by
  decide

/-! ## Unsupported font size -/

theorem show_char_unsupported (F : Font) (x y chr size mode : Nat) (s : State)
    (h12 : size ≠ 12) (h16 : size ≠ 16) (h24 : size ≠ 24) :
    oled_show_char F x y chr size mode s = s := by
  unfold oled_show_char
  dsimp only
  rw [if_neg h12, if_neg h16, if_neg h24]

/-- With a callee that returns its state, `oled_show_num` can only return the
state it was given. -/
theorem show_num_loop_id {σ : Type} (show_char : Nat → Nat → Nat → Nat → Nat → σ → σ)
    (x y num len size : Nat) (hid : ∀ x y c m s, show_char x y c size m s = s)
    (rem t enshow : Nat) (s s' : σ)
    (h : show_num_loop show_char x y num len size rem t enshow s = some s') : s' = s := by
  induction rem generalizing t enshow with
  | zero =>
    unfold show_num_loop at h
    exact (Option.some.inj h).symm
  | succ rem ih =>
    unfold show_num_loop at h
    simp only [hid] at h
    split at h
    · exact absurd h (by simp)
    · split at h
      · split at h
        · exact ih _ _ h
        · exact ih _ _ h
      · exact ih _ _ h

theorem oled_pow_ten_ne_zero (n : Nat) (h : n ≤ 31) : oled_pow 10 n ≠ 0 := by
  interval_cases n <;> decide

/-- Up to 32 digits no divisor is zero, so `oled_show_num` returns. -/
theorem show_num_loop_some {σ : Type} (show_char : Nat → Nat → Nat → Nat → Nat → σ → σ)
    (x y num len size : Nat) (hlen : len ≤ 32) (rem t enshow : Nat) (s : σ)
    (ht : t + rem = len) :
    ∃ s', show_num_loop show_char x y num len size rem t enshow s = some s' := by
  induction rem generalizing t enshow s with
  | zero => exact ⟨s, rfl⟩
  | succ rem ih =>
    have hp : ¬ (oled_pow 10 ((len - t - 1) % 256) = 0) := by
      have h1 : (len - t - 1) % 256 = len - t - 1 := by omega
      rw [h1]
      exact oled_pow_ten_ne_zero _ (by omega)
    unfold show_num_loop
    simp only [if_neg hp]
    split
    · split
      · exact ih _ _ _ (by omega)
      · exact ih _ _ _ (by omega)
    · exact ih _ _ _ (by omega)

/-- C9: for a size other than 12, 16 and 24, `oled_show_char` returns the state
it was given (framebuffer unchanged, nothing emitted); hence `oled_show_num`
with such a size can only return the state it was given, and does return it
for every digit count up to 32. -/
theorem C9_unsupported_size (F : Font) (x y chr size mode num len : Nat) (s : State)
    (h12 : size ≠ 12) (h16 : size ≠ 16) (h24 : size ≠ 24) :
    oled_show_char F x y chr size mode s = s ∧
    (∀ s', oled_show_num F x y num len size s = some s' → s' = s) ∧
    (len ≤ 32 → oled_show_num F x y num len size s = some s) := by
  have hid : ∀ x y c m s, oled_show_char F x y c size m s = s :=
    fun x y c m s => show_char_unsupported F x y c size m s h12 h16 h24
  refine ⟨hid x y chr mode s, ?_, ?_⟩
  · intro s' h
    exact show_num_loop_id (oled_show_char F) x y num len size hid len 0 0 s s' h
  · intro hlen
    obtain ⟨s', hs'⟩ := show_num_loop_some (oled_show_char F) x y num len size hlen len 0 0 s
      (by omega)
    have := show_num_loop_id (oled_show_char F) x y num len size hid len 0 0 s s' hs'
    subst this
    exact hs'

theorem C9_unsupported_size_witness :
    ((20 : Nat) ≠ 12 ∧ (20 : Nat) ≠ 16 ∧ (20 : Nat) ≠ 24) ∧
    oled_show_char probeFont 0 0 65 20 1 zeroState = zeroState ∧
    oled_show_num probeFont 0 0 7 3 20 zeroState = some zeroState :=
  ⟨by decide,
   (C9_unsupported_size probeFont 0 0 65 20 1 7 3 zeroState (by decide) (by decide)
      (by decide)).1,
   (C9_unsupported_size probeFont 0 0 65 20 1 7 3 zeroState (by decide) (by decide)
      (by decide)).2.2 (by decide)⟩

/-! ## String rendering -/

/-- One step of `oled_show_string` on a printable character that fits on the
current line and on the screen: drawn where the cursor is. -/
theorem show_string_with_fit {σ : Type} (show_char : Nat → Nat → Nat → Nat → Nat → σ → σ)
    (clear : σ → σ) (size x y c : Nat) (p : List Nat) (s : σ)
    (hsz : size ≤ 64) (hc : 32 ≤ c ∧ c ≤ 126) (hx : x ≤ 128 - size / 2) (hy : y ≤ 64 - size) :
    oled_show_string_with show_char clear size x y (c :: p) s =
      oled_show_string_with show_char clear size ((x + size / 2) % 256) y p
        (show_char x y c size 1 s) := by
  have h0 : c ≤ 126 ∧ c ≥ 32 := ⟨hc.2, hc.1⟩
  have h1 : ¬ ((x : Int) > 128 - ((size / 2 : Nat) : Int)) := by omega
  have h2 : ¬ ((y : Int) > 64 - (size : Int)) := by omega
  rw [oled_show_string_with]
  simp only [if_pos h0, if_neg h1, if_neg h2]

/-- One step of `oled_show_string` on a printable character that does not fit
on the current line while the next line fits on the screen: drawn at column 0
of the next line. -/
theorem show_string_with_wrap {σ : Type} (show_char : Nat → Nat → Nat → Nat → Nat → σ → σ)
    (clear : σ → σ) (size x y c : Nat) (p : List Nat) (s : σ)
    (hsz : size ≤ 64) (hc : 32 ≤ c ∧ c ≤ 126) (hx : 128 - size / 2 < x)
    (hy : y + size ≤ 64 - size) :
    oled_show_string_with show_char clear size x y (c :: p) s =
      oled_show_string_with show_char clear size ((0 + size / 2) % 256) (y + size) p
        (show_char 0 (y + size) c size 1 s) := by
  have h0 : c ≤ 126 ∧ c ≥ 32 := ⟨hc.2, hc.1⟩
  have h1 : (x : Int) > 128 - ((size / 2 : Nat) : Int) := by omega
  have hm : (y + size) % 256 = y + size := Nat.mod_eq_of_lt (by omega)
  have h2 : ¬ (((y + size : Nat) : Int) > 64 - (size : Int)) := by omega
  rw [oled_show_string_with]
  simp only [if_pos h0, if_pos h1, hm, if_neg h2]

set_option maxRecDepth 1000000 in
/-- C10, as written the second clause fails: at `x = 0 <= 128 - 16/2` but
`y = 60 > 64 - 16` the character is not drawn at `(0, 60)`; the screen is
cleared and the character is drawn at `(0, 0)`. -/
theorem C10_string_wrap_counterexample :
    0 ≤ 128 - 16 / 2 ∧
    pixel (oled_show_string probeFont 0 60 [65] 16 zeroState) 0 0 = true ∧
    pixel (oled_show_string probeFont ((0 + 16 / 2) % 256) 60 [] 16
      (oled_show_char probeFont 0 60 65 16 1 zeroState)) 0 0 = false ∧
    oled_show_string probeFont 0 60 [65] 16 zeroState ≠
      oled_show_string probeFont ((0 + 16 / 2) % 256) 60 [] 16
        (oled_show_char probeFont 0 60 65 16 1 zeroState) ∧
    oled_show_string_with recordChar id 16 0 60 [65] [] =
      [{ x := 0, y := 0, chr := 65, size := 16, mode := 1 }] := by
  have h1 : pixel (oled_show_string probeFont 0 60 [65] 16 zeroState) 0 0 = true := by
    decide
  have h2 : pixel (oled_show_string probeFont ((0 + 16 / 2) % 256) 60 [] 16
      (oled_show_char probeFont 0 60 65 16 1 zeroState)) 0 0 = false := by
    decide
  refine ⟨by decide, h1, h2, ?_, by decide⟩
  intro h
  rw [h, h2] at h1
  exact absurd h1 (by decide)

/-- C10 amended: in `oled_show_string` with a supported size, a printable
character whose column satisfies `x > 128 - size/2` is drawn at column 0 on
row `y + size` provided `y + size <= 64 - size`, and a character with
`x <= 128 - size/2` is drawn at `(x, y)` provided `y <= 64 - size`; in both
cases the rest of the text continues `size/2` columns further.  With size 16
from `(120, 0)`, two printable characters are drawn at `(120, 0)` and
`(0, 16)`. -/
theorem C10_string_wrap_amended (F : Font) (x y c size : Nat) (p : List Nat) (s : State)
    (hsz : size = 12 ∨ size = 16 ∨ size = 24) (hc : 32 ≤ c ∧ c ≤ 126) :
    (128 - size / 2 < x → y + size ≤ 64 - size →
      oled_show_string F x y (c :: p) size s =
        oled_show_string F ((0 + size / 2) % 256) (y + size) p size
          (oled_show_char F 0 (y + size) c size 1 s)) ∧
    (x ≤ 128 - size / 2 → y ≤ 64 - size →
      oled_show_string F x y (c :: p) size s =
        oled_show_string F ((x + size / 2) % 256) y p size
          (oled_show_char F x y c size 1 s)) ∧
    (∀ c1 c2, 32 ≤ c1 ∧ c1 ≤ 126 → 32 ≤ c2 ∧ c2 ≤ 126 →
      oled_show_string F 120 0 [c1, c2] 16 s =
        oled_show_char F 0 16 c2 16 1 (oled_show_char F 120 0 c1 16 1 s)) := by
  have hle : size ≤ 64 := by rcases hsz with rfl | rfl | rfl <;> decide
  refine ⟨?_, ?_, ?_⟩
  · intro hx hy
    exact show_string_with_wrap (oled_show_char F) oled_clear size x y c p s hle hc hx hy
  · intro hx hy
    exact show_string_with_fit (oled_show_char F) oled_clear size x y c p s hle hc hx hy
  · intro c1 c2 h1 h2
    unfold oled_show_string
    rw [show_string_with_fit (oled_show_char F) oled_clear 16 120 0 c1 [c2] s (by decide) h1
      (by decide) (by decide)]
    rw [show_string_with_wrap (oled_show_char F) oled_clear 16 ((120 + 16 / 2) % 256) 0 c2 [] _
      (by decide) h2 (by decide) (by decide)]
    rfl

theorem C10_string_wrap_amended_witness :
    ((16 = 12 ∨ 16 = 16 ∨ 16 = 24) ∧ (32 ≤ 72 ∧ 72 ≤ 126) ∧ 128 - 16 / 2 < 128 ∧
      0 + 16 ≤ 64 - 16) ∧
    oled_show_string probeFont 128 0 [72, 105] 16 zeroState =
      oled_show_string probeFont ((0 + 16 / 2) % 256) (0 + 16) [105] 16
        (oled_show_char probeFont 0 (0 + 16) 72 16 1 zeroState) :=
  ⟨by decide,
   (C10_string_wrap_amended probeFont 128 0 72 16 [105] zeroState (by decide) (by decide)).1
     (by decide) (by decide)⟩


/-! ## Clear and initialisation -/

theorem clear_store_inner (i n : Nat) (s : State) :
    forUpTo n (fun n s => gram_store n i 0 s) s =
      { s with gram := fun c p => if c < n ∧ p = i then 0 else s.gram c p } := by
  induction n with
  | zero => simp [forUpTo_zero]
  | succ n ih =>
    rw [forUpTo_succ, ih]
    unfold gram_store
    dsimp only
    congr 1
    funext c p
    by_cases h1 : c = n ∧ p = i
    · have h2 : c < n + 1 ∧ p = i := ⟨by omega, h1.2⟩
      rw [if_pos h1, if_pos h2]
    · rw [if_neg h1]
      by_cases h3 : c < n ∧ p = i
      · have h2 : c < n + 1 ∧ p = i := ⟨by omega, h3.2⟩
        rw [if_pos h3, if_pos h2]
      · have h2 : ¬ (c < n + 1 ∧ p = i) := by
          rintro ⟨h4, h5⟩
          by_cases h6 : c = n
          · exact h1 ⟨h6, h5⟩
          · exact h3 ⟨by omega, h5⟩
        rw [if_neg h3, if_neg h2]

theorem clear_store_outer (m : Nat) (s : State) :
    forUpTo m (fun i s => forUpTo 128 (fun n s => gram_store n i 0 s) s) s =
      { s with gram := fun c p => if c < 128 ∧ p < m then 0 else s.gram c p } := by
  induction m with
  | zero => simp [forUpTo_zero]
  | succ m ih =>
    rw [forUpTo_succ, ih, clear_store_inner]
    dsimp only
    congr 1
    funext c p
    by_cases h1 : c < 128 ∧ p = m
    · have h2 : c < 128 ∧ p < m + 1 := ⟨h1.1, by omega⟩
      rw [if_pos h1, if_pos h2]
    · rw [if_neg h1]
      by_cases h3 : c < 128 ∧ p < m
      · have h2 : c < 128 ∧ p < m + 1 := ⟨h3.1, by omega⟩
        rw [if_pos h3, if_pos h2]
      · have h2 : ¬ (c < 128 ∧ p < m + 1) := by
          rintro ⟨h4, h5⟩
          by_cases h6 : p = m
          · exact h1 ⟨h4, h6⟩
          · exact h3 ⟨h4, by omega⟩
        rw [if_neg h3, if_neg h2]

/-- The flush stream only reads the 128 x 8 bytes of the framebuffer. -/
theorem flushStream_congr (g g' : Nat → Nat → Byte)
    (h : ∀ c p, c < 128 → p < 8 → g c p = g' c p) : flushStream g = flushStream g' := by
  unfold flushStream
  have hp : ∀ p ∈ List.range 8, pageStream g p = pageStream g' p := by
    intro p hp
    rw [List.mem_range] at hp
    unfold pageStream
    congr 1
    apply List.map_congr_left
    intro n hn
    rw [List.mem_range] at hn
    rw [h n p hn hp]
  unfold List.flatMap
  rw [List.map_congr_left hp]

/-- The whole effect of `oled_clear`: the 128 x 8 bytes are zero and one flush
stream of the all-zero framebuffer is appended to what was sent before. -/
theorem clear_eq (s : State) :
    oled_clear s =
      { gram := fun c p => if c < 128 ∧ p < 8 then 0 else s.gram c p,
        out := s.out ++ zeroFlush } := by
  unfold oled_clear
  dsimp only
  rw [clear_store_outer, refresh_eq]
  dsimp only
  have h : flushStream (fun c p => if c < 128 ∧ p < 8 then (0 : Byte) else s.gram c p) =
      zeroFlush := by
    unfold zeroFlush
    apply flushStream_congr
    intro c p hc hp
    rw [if_pos ⟨hc, hp⟩]
  rw [h]

theorem clear_gram (s : State) (c p : Nat) (hc : c < 128) (hp : p < 8) :
    (oled_clear s).gram c p = 0 := by
  rw [clear_eq]
  dsimp only
  rw [if_pos ⟨hc, hp⟩]

theorem clear_out (s : State) : (oled_clear s).out = s.out ++ zeroFlush := by
  rw [clear_eq]

theorem zeroFlush_eq_refresh : zeroFlush = (oled_refresh_gram zeroState).out := by
  rw [refresh_eq]
  rfl

theorem zeroFlush_length : zeroFlush.length = 1048 := flushStream_length _

/-- C14: after `oled_clear` every one of the 128 x 8 framebuffer bytes is 0, so
every pixel `(x, y)` with `x < 128`, `y < 64` reads as clear, and clearing
again leaves the framebuffer as it is. -/
theorem C14_clear_all_off (s : State) :
    (∀ c p, c < 128 → p < 8 → (oled_clear s).gram c p = 0) ∧
    (∀ x y, x < 128 → y < 64 → pixel (oled_clear s) x y = false) ∧
    (oled_clear (oled_clear s)).gram = (oled_clear s).gram := by
  refine ⟨fun c p hc hp => clear_gram s c p hc hp, ?_, ?_⟩
  · intro x y hx hy
    unfold pixel
    rw [clear_gram s x (y / 8) hx (by omega)]
    simp
  · rw [clear_eq (oled_clear s), clear_eq s]
    dsimp only
    funext c p
    by_cases h : c < 128 ∧ p < 8
    · simp only [if_pos h]
    · simp only [if_neg h]

theorem C14_clear_all_off_witness :
    (oled_clear fullState).gram 100 7 = 0 ∧ pixel (oled_clear fullState) 127 63 = false :=
  ⟨(C14_clear_all_off fullState).1 100 7 (by decide) (by decide),
   (C14_clear_all_off fullState).2.1 127 63 (by decide) (by decide)⟩

/-- The bytes `oled_init` sends before it clears. -/
theorem init_eq (s : State) :
    oled_init s = oled_clear { s with out := s.out ++
      [(0xAE, OLED_CMD), (0x40, OLED_CMD), (0x81, OLED_CMD), (0x72, OLED_CMD),
       (0xA1, OLED_CMD), (0xA4, OLED_CMD), (0xA6, OLED_CMD), (0xA8, OLED_CMD),
       (0x3F, OLED_CMD), (0xC8, OLED_CMD), (0xD3, OLED_CMD), (0x00, OLED_CMD),
       (0xD5, OLED_CMD), (0xB0, OLED_CMD), (0xD9, OLED_CMD), (0x22, OLED_CMD),
       (0xDA, OLED_CMD), (0x12, OLED_CMD), (0xDB, OLED_CMD), (0x3C, OLED_CMD),
       (0xAF, OLED_CMD)] } := by
  unfold oled_init
  simp [oled_wr_byte]

/-- C13: `oled_init` emits the 21 configuration bytes in source order, every
one tagged as command, from display-off `0xAE` to display-on `0xAF`, then
exactly the 1048-byte flush stream of the all-zero framebuffer, and returns
with every framebuffer byte zero, whatever the framebuffer held before. -/
theorem C13_init_stream (s : State) :
    (oled_init s).out = s.out ++
      [(0xAE, OLED_CMD), (0x40, OLED_CMD), (0x81, OLED_CMD), (0x72, OLED_CMD),
       (0xA1, OLED_CMD), (0xA4, OLED_CMD), (0xA6, OLED_CMD), (0xA8, OLED_CMD),
       (0x3F, OLED_CMD), (0xC8, OLED_CMD), (0xD3, OLED_CMD), (0x00, OLED_CMD),
       (0xD5, OLED_CMD), (0xB0, OLED_CMD), (0xD9, OLED_CMD), (0x22, OLED_CMD),
       (0xDA, OLED_CMD), (0x12, OLED_CMD), (0xDB, OLED_CMD), (0x3C, OLED_CMD),
       (0xAF, OLED_CMD)] ++ (oled_refresh_gram zeroState).out ∧
    (oled_refresh_gram zeroState).out.length = 1048 ∧
    (∀ c p, c < 128 → p < 8 → (oled_init s).gram c p = 0) := by
  refine ⟨?_, ?_, ?_⟩
  · rw [init_eq, clear_out, zeroFlush_eq_refresh]
  · rw [← zeroFlush_eq_refresh, zeroFlush_length]
  · intro c p hc hp
    rw [init_eq, clear_gram _ c p hc hp]

theorem C13_init_stream_witness :
    (oled_init fullState).gram 0 0 = 0 ∧ (oled_init fullState).gram 127 7 = 0 :=
  ⟨(C13_init_stream fullState).2.2 0 0 (by decide) (by decide),
   (C13_init_stream fullState).2.2 127 7 (by decide) (by decide)⟩

theorem draw_rows_out (dot : Nat) (xs ys : List Nat) (s : State) :
    (xs.foldl (fun s xx => ys.foldl (fun s yy => oled_draw_point xx yy dot s) s) s).out =
      s.out := by
  have hcol : ∀ (x : Nat) (ys : List Nat) (s : State),
      (ys.foldl (fun s yy => oled_draw_point x yy dot s) s).out = s.out := by
    intro x ys
    induction ys with
    | nil => intro s; rfl
    | cons y ys ih => intro s; rw [List.foldl_cons, ih, draw_point_out]
  induction xs generalizing s with
  | nil => rfl
  | cons x xs ih => rw [List.foldl_cons, ih, hcol]

/-- C15: `oled_clear` and, for limits `x2, y2 <= 254`, `oled_fill` each emit
exactly one flush stream, the one `oled_refresh_gram` sends for the framebuffer
as it stands after the mutation, and nothing before it. -/
theorem C15_clear_fill_flush (fuel x1 y1 x2 y2 dot : Nat) (s : State)
    (hx2 : x2 ≤ 254) (hy2 : y2 ≤ 254) (hf : 512 ≤ fuel) :
    (oled_clear s).out = s.out ++ flushStream (oled_clear s).gram ∧
    (∃ s', oled_fill fuel x1 y1 x2 y2 dot s = some s' ∧
      s'.out = s.out ++ flushStream s'.gram) ∧
    (∀ g : Nat → Nat → Byte,
      flushStream g = (oled_refresh_gram { gram := g, out := [] }).out) := by
  refine ⟨?_, ?_, ?_⟩
  · have h : zeroFlush = flushStream (oled_clear s).gram := by
      unfold zeroFlush
      apply flushStream_congr
      intro c p hc hp
      rw [clear_gram s c p hc hp]
    rw [clear_out, h]
  · refine ⟨_, fill_eq fuel x1 y1 x2 y2 dot s hx2 hy2 hf, ?_⟩
    rw [refresh_eq]
    dsimp only
    rw [draw_rows_out]
  · intro g
    rw [refresh_eq]
    rfl

theorem C15_clear_fill_flush_witness :
    ((20 : Nat) ≤ 254 ∧ (20 : Nat) ≤ 254 ∧ 512 ≤ 512) ∧
    (oled_clear fullState).out = fullState.out ++ flushStream (oled_clear fullState).gram ∧
    ∃ s', oled_fill 512 10 10 20 20 1 fullState = some s' ∧
      s'.out = fullState.out ++ flushStream s'.gram :=
  ⟨by decide,
   (C15_clear_fill_flush 512 10 10 20 20 1 fullState (by decide) (by decide) (by decide)).1,
   (C15_clear_fill_flush 512 10 10 20 20 1 fullState (by decide) (by decide) (by decide)).2.1⟩


/-! ## The string loop, step by step -/

/-- One iteration of `oled_show_string` on a printable character. -/
theorem show_string_with_cons {σ : Type} (show_char : Nat → Nat → Nat → Nat → Nat → σ → σ)
    (clear : σ → σ) (size x y c : Nat) (p : List Nat) (s : σ) (hc : 32 ≤ c ∧ c ≤ 126) :
    oled_show_string_with show_char clear size x y (c :: p) s =
      oled_show_string_with show_char clear size
        (((stringCursor size x y).1 + size / 2) % 256) (stringCursor size x y).2.1 p
        (show_char (stringCursor size x y).1 (stringCursor size x y).2.1 c size 1
          (if (stringCursor size x y).2.2 = true then clear s else s)) := by
  have h0 : c ≤ 126 ∧ c ≥ 32 := ⟨hc.2, hc.1⟩
  rw [oled_show_string_with]
  unfold stringCursor
  simp only [if_pos h0]
  by_cases h1 : (x : Int) > 128 - ((size / 2 : Nat) : Int)
  · simp only [if_pos h1]
    by_cases h2 : (((y + size) % 256 : Nat) : Int) > 64 - (size : Int)
    · simp only [if_pos h2, if_true]
    · simp only [if_neg h2, Bool.false_eq_true, if_false]
  · simp only [if_neg h1]
    by_cases h2 : (y : Int) > 64 - (size : Int)
    · simp only [if_pos h2, if_true]
    · simp only [if_neg h2, Bool.false_eq_true, if_false]

/-- The loop of `oled_show_string` ends at a byte outside `[0x20, 0x7E]`. -/
theorem show_string_with_stop {σ : Type} (show_char : Nat → Nat → Nat → Nat → Nat → σ → σ)
    (clear : σ → σ) (size x y c : Nat) (p : List Nat) (s : σ) (hc : ¬ (32 ≤ c ∧ c ≤ 126)) :
    oled_show_string_with show_char clear size x y (c :: p) s = s := by
  have h0 : ¬ (c ≤ 126 ∧ c ≥ 32) := fun h => hc ⟨h.2, h.1⟩
  rw [oled_show_string_with]
  simp only [if_neg h0]

theorem show_string_with_nil {σ : Type} (show_char : Nat → Nat → Nat → Nat → Nat → σ → σ)
    (clear : σ → σ) (size x y : Nat) (s : σ) :
    oled_show_string_with show_char clear size x y [] s = s := by
  rw [oled_show_string_with]

/-- For a supported size the guards leave the cursor at a place where the
whole glyph cell is on the screen. -/
theorem stringCursor_in_range (size x y : Nat) (hsz : size = 12 ∨ size = 16 ∨ size = 24) :
    (stringCursor size x y).1 ≤ 128 - size / 2 ∧ (stringCursor size x y).2.1 ≤ 64 - size := by
  unfold stringCursor
  by_cases h1 : (x : Int) > 128 - ((size / 2 : Nat) : Int)
  · simp only [if_pos h1]
    by_cases h2 : (((y + size) % 256 : Nat) : Int) > 64 - (size : Int)
    · simp only [if_pos h2]
      omega
    · simp only [if_neg h2]
      rcases hsz with rfl | rfl | rfl <;> omega
  · simp only [if_neg h1]
    by_cases h2 : (y : Int) > 64 - (size : Int)
    · simp only [if_pos h2]
      omega
    · simp only [if_neg h2]
      rcases hsz with rfl | rfl | rfl <;> omega

theorem show_string_with_printable {σ : Type} (show_char : Nat → Nat → Nat → Nat → Nat → σ → σ)
    (clear : σ → σ) (size x y : Nat) (text : List Nat) (s : σ) :
    oled_show_string_with show_char clear size x y text s =
      oled_show_string_with show_char clear size x y (printablePrefix text) s := by
  induction text generalizing x y s with
  | nil => rfl
  | cons c p ih =>
    by_cases hc : 32 ≤ c ∧ c ≤ 126
    · have hd : decide (c ≤ 126 ∧ c ≥ 32) = true := decide_eq_true ⟨hc.2, hc.1⟩
      have hp : printablePrefix (c :: p) = c :: printablePrefix p := by
        unfold printablePrefix
        rw [List.takeWhile_cons, hd]
        rfl
      rw [hp, show_string_with_cons _ _ _ _ _ _ _ _ hc, show_string_with_cons _ _ _ _ _ _ _ _ hc,
        ih]
    · have hd : decide (c ≤ 126 ∧ c ≥ 32) = false :=
        decide_eq_false (fun h => hc ⟨h.2, h.1⟩)
      have hp : printablePrefix (c :: p) = [] := by
        unfold printablePrefix
        rw [List.takeWhile_cons, hd]
        rfl
      rw [hp, show_string_with_stop _ _ _ _ _ _ _ _ hc, show_string_with_nil]

/-- C12: `oled_show_string` has the same effect as on the longest prefix of the
text whose bytes all lie in `[0x20, 0x7E]`; if the first byte is outside that
range (or the text is empty) the state is returned unchanged: framebuffer kept,
nothing emitted. -/
theorem C12_string_stops (F : Font) (x y size : Nat) (text : List Nat) (s : State) :
    oled_show_string F x y text size s = oled_show_string F x y (printablePrefix text) size s ∧
    (∀ c ∈ printablePrefix text, 32 ≤ c ∧ c ≤ 126) ∧
    (∃ rest, text = printablePrefix text ++ rest ∧
      ∀ c, rest.head? = some c → ¬ (32 ≤ c ∧ c ≤ 126)) ∧
    (∀ c rest, text = c :: rest → ¬ (32 ≤ c ∧ c ≤ 126) →
      oled_show_string F x y text size s = s) ∧
    oled_show_string F x y [] size s = s := by
  refine ⟨show_string_with_printable _ _ _ _ _ _ _, ?_, ?_, ?_, rfl⟩
  · intro c hc
    unfold printablePrefix at hc
    have := List.mem_takeWhile_imp hc
    simp only [decide_eq_true_eq] at this
    exact ⟨this.2, this.1⟩
  · refine ⟨text.dropWhile (fun c => decide (c ≤ 126 ∧ c ≥ 32)), ?_, ?_⟩
    · unfold printablePrefix
      exact (List.takeWhile_append_dropWhile _ _).symm
    · intro c hc
      have := List.head?_dropWhile_not (fun c => decide (c ≤ 126 ∧ c ≥ 32)) text
      rw [hc] at this
      simp only [Option.all_some, Bool.not_eq_true', decide_eq_false_iff_not] at this
      exact fun h => this ⟨h.2, h.1⟩
  · intro c rest ht hc
    rw [ht]
    exact show_string_with_stop _ _ _ _ _ _ _ _ hc

theorem C12_string_stops_witness :
    oled_show_string probeFont 0 0 [10, 65, 66] 16 fullState = fullState ∧
    printablePrefix [72, 105, 10, 65] = [72, 105] :=
  ⟨(C12_string_stops probeFont 0 0 16 [10, 65, 66] fullState).2.2.2.1 10 [65, 66] rfl
      (by decide),
   by decide⟩


/-! ## What string drawing sends to the transport -/

theorem forUpTo_invariant {σ : Type} (P : σ → Prop) (n : Nat) (body : Nat → σ → σ) (s : σ)
    (h0 : P s) (hstep : ∀ i s, P s → P (body i s)) : P (forUpTo n body s) := by
  induction n with
  | zero => exact h0
  | succ n ih =>
    rw [forUpTo_succ]
    exact hstep n _ ih

theorem show_char_bits_out (size mode y0 rem x y temp : Nat) (s : State) :
    (show_char_bits size mode y0 rem x y temp s).2.2.out = s.out := by
  induction rem generalizing x y temp s with
  | zero => rfl
  | succ rem ih =>
    rw [show_char_bits_step]
    split
    · exact draw_point_out _ _ _ _
    · rw [ih, draw_point_out]

/-- `oled_show_char` never sends anything, whatever its arguments. -/
theorem show_char_out (F : Font) (x y chr size mode : Nat) (s : State) :
    (oled_show_char F x y chr size mode s).out = s.out := by
  have hg : ∀ (pfont : Nat → Nat) (csize : Nat),
      (show_char_glyph pfont size mode y csize x y s).out = s.out := by
    intro pfont csize
    unfold show_char_glyph
    apply forUpTo_invariant (fun st : Nat × Nat × State => st.2.2.out = s.out)
    · rfl
    · intro i st hst
      dsimp only
      rw [show_char_bits_out, hst]
  unfold oled_show_char
  dsimp only
  split
  · exact hg _ _
  · split
    · exact hg _ _
    · split
      · exact hg _ _
      · rfl

/-- The counter of `oled_clear` calls started from `n` ends at `n` plus the
number of calls. -/
theorem stringClears_acc (size x y : Nat) (text : List Nat) (n : Nat) :
    oled_show_string_with (fun _ _ _ _ _ (n : Nat) => n) (fun n => n + 1) size x y text n =
      n + stringClears size x y text := by
  induction text generalizing x y n with
  | nil =>
    unfold stringClears
    rw [show_string_with_nil, show_string_with_nil]
    rfl
  | cons c p ih =>
    unfold stringClears
    by_cases hc : 32 ≤ c ∧ c ≤ 126
    · rw [show_string_with_cons _ _ _ _ _ _ _ _ hc, show_string_with_cons _ _ _ _ _ _ _ _ hc]
      by_cases h : (stringCursor size x y).2.2 = true
      · simp only [if_pos h]
        rw [ih, ih _ _ (0 + 1)]
        omega
      · simp only [if_neg h]
        rw [ih, ih _ _ 0]
        omega
    · rw [show_string_with_stop _ _ _ _ _ _ _ _ hc, show_string_with_stop _ _ _ _ _ _ _ _ hc]
      rfl

theorem stringClears_cons (size x y c : Nat) (p : List Nat) (hc : 32 ≤ c ∧ c ≤ 126) :
    stringClears size x y (c :: p) =
      (if (stringCursor size x y).2.2 = true then 1 else 0) +
        stringClears size (((stringCursor size x y).1 + size / 2) % 256)
          (stringCursor size x y).2.1 p := by
  conv => lhs; unfold stringClears
  rw [show_string_with_cons _ _ _ _ _ _ _ _ hc, stringClears_acc]

/-- Everything `oled_show_string` sends: one flush stream of the all-zero
framebuffer for each `oled_clear` call. -/
theorem show_string_out (F : Font) (size x y : Nat) (text : List Nat) (s : State) :
    (oled_show_string F x y text size s).out =
      s.out ++ (List.replicate (stringClears size x y text) zeroFlush).flatten := by
  unfold oled_show_string
  induction text generalizing x y s with
  | nil =>
    rw [show_string_with_nil]
    simp [stringClears, show_string_with_nil]
  | cons c p ih =>
    by_cases hc : 32 ≤ c ∧ c ≤ 126
    · rw [show_string_with_cons _ _ _ _ _ _ _ _ hc, ih, show_char_out,
        stringClears_cons _ _ _ _ _ hc]
      by_cases h : (stringCursor size x y).2.2 = true
      · simp only [if_pos h, clear_out, Nat.add_comm 1, List.replicate_succ, List.flatten_cons,
          List.append_assoc]
      · simp only [if_neg h, Nat.zero_add]
    · rw [show_string_with_stop _ _ _ _ _ _ _ _ hc]
      simp [stringClears, show_string_with_stop _ _ _ _ _ _ _ _ hc]

/-- A text that fits on the current line makes no `oled_clear` call. -/
theorem stringClears_fit (size y : Nat) (hy : y + size ≤ 64) (text : List Nat) (x : Nat)
    (hx : x + (size / 2) * text.length ≤ 128) : stringClears size x y text = 0 := by
  induction text generalizing x with
  | nil => simp [stringClears, show_string_with_nil]
  | cons c p ih =>
    by_cases hc : 32 ≤ c ∧ c ≤ 126
    · have hlen : (c :: p).length = p.length + 1 := rfl
      rw [hlen, Nat.mul_add, Nat.mul_one] at hx
      have h1 : ¬ ((x : Int) > 128 - ((size / 2 : Nat) : Int)) := by omega
      have h2 : ¬ ((y : Int) > 64 - (size : Int)) := by omega
      have hcur : stringCursor size x y = (x, y, false) := by
        unfold stringCursor
        simp only [if_neg h1, if_neg h2]
      have hm : (x + size / 2) % 256 = x + size / 2 := Nat.mod_eq_of_lt (by omega)
      rw [stringClears_cons _ _ _ _ _ hc, hcur]
      dsimp only
      rw [hm, ih (x + size / 2) (by omega)]
      simp
    · simp [stringClears, show_string_with_stop _ _ _ _ _ _ _ _ hc]

/-- C16, as written the claim fails: started at `(0, 60)` with size 16, the
height guard fires, `oled_show_string` calls `oled_clear`, and the 1048 bytes
of a flush stream are sent. -/
theorem C16_string_emits_counterexample :
    (oled_show_string probeFont 0 60 [65] 16 zeroState).out = zeroFlush ∧
    (oled_show_string probeFont 0 60 [65] 16 zeroState).out.length = 1048 ∧
    (oled_show_string probeFont 0 60 [65] 16 zeroState).out ≠ zeroState.out := by
  have hn : stringClears 16 0 60 [65] = 1 := by decide
  have h : (oled_show_string probeFont 0 60 [65] 16 zeroState).out = zeroFlush := by
    rw [show_string_out, hn]
    simp [zeroState]
  refine ⟨h, ?_, ?_⟩
  · rw [h, zeroFlush_length]
  · intro h'
    have := congrArg List.length h'
    rw [h, zeroFlush_length] at this
    exact absurd this (by decide)

/-- C16 amended: `oled_show_string` sends nothing except through `oled_clear`:
what it emits is one flush stream of the all-zero framebuffer for each
`oled_clear` call made when the height guard `y > 64 - size` fires, and no
byte at all when the guard never fires, as for a text that fits on the current
line (`y + size <= 64`, `x + (size/2) * length <= 128`). -/
theorem C16_string_emits_amended (F : Font) (size x y : Nat) (text : List Nat) (s : State) :
    (oled_show_string F x y text size s).out =
      s.out ++ (List.replicate (stringClears size x y text) zeroFlush).flatten ∧
    (stringClears size x y text = 0 → (oled_show_string F x y text size s).out = s.out) ∧
    (y + size ≤ 64 → x + (size / 2) * text.length ≤ 128 →
      (oled_show_string F x y text size s).out = s.out) := by
  have h0 : stringClears size x y text = 0 →
      (oled_show_string F x y text size s).out = s.out := by
    intro h
    rw [show_string_out, h]
    simp
  exact ⟨show_string_out F size x y text s, h0,
    fun hy hx => h0 (stringClears_fit size y hy text x hx)⟩

theorem C16_string_emits_amended_witness :
    (0 + 16 ≤ 64 ∧ 0 + (16 / 2) * [72, 105].length ≤ 128) ∧
    (oled_show_string probeFont 0 0 [72, 105] 16 fullState).out = fullState.out :=
  ⟨by decide,
   (C16_string_emits_amended probeFont 16 0 0 [72, 105] fullState).2.2 (by decide) (by decide)⟩


/-! ## Where string drawing puts its glyphs -/

/-- The string loop run with the ghost list of calls: its state component is
what `oled_show_string` returns, and every call it appends is at a place where
the whole glyph cell is on the screen. -/
theorem show_string_trace (F : Font) (size : Nat) (hsz : size = 12 ∨ size = 16 ∨ size = 24)
    (text : List Nat) (x y : Nat) (s : State) (l0 : List CharCall) :
    (oled_show_string_with (traceChar F) traceClear size x y text (s, l0)).1 =
      oled_show_string F x y text size s ∧
    ∃ l, (oled_show_string_with (traceChar F) traceClear size x y text (s, l0)).2 = l0 ++ l ∧
      ∀ c ∈ l, c.x ≤ 128 - size / 2 ∧ c.y ≤ 64 - size ∧ c.size = size ∧ c.mode = 1 := by
  unfold oled_show_string
  induction text generalizing x y s l0 with
  | nil =>
    rw [show_string_with_nil, show_string_with_nil]
    exact ⟨rfl, [], by simp, by simp⟩
  | cons c p ih =>
    by_cases hc : 32 ≤ c ∧ c ≤ 126
    · rw [show_string_with_cons _ _ _ _ _ _ _ _ hc, show_string_with_cons _ _ _ _ _ _ _ _ hc]
      have hst : traceChar F (stringCursor size x y).1 (stringCursor size x y).2.1 c size 1
          (if (stringCursor size x y).2.2 = true then traceClear (s, l0) else (s, l0)) =
          (oled_show_char F (stringCursor size x y).1 (stringCursor size x y).2.1 c size 1
            (if (stringCursor size x y).2.2 = true then oled_clear s else s),
           l0 ++ [{ x := (stringCursor size x y).1, y := (stringCursor size x y).2.1,
                    chr := c, size := size, mode := 1 }]) := by
        by_cases h : (stringCursor size x y).2.2 = true
        · simp only [if_pos h, traceChar, traceClear]
        · simp only [if_neg h, traceChar]
      rw [hst]
      obtain ⟨h1, l, h2, h3⟩ := ih (((stringCursor size x y).1 + size / 2) % 256)
        (stringCursor size x y).2.1
        (oled_show_char F (stringCursor size x y).1 (stringCursor size x y).2.1 c size 1
          (if (stringCursor size x y).2.2 = true then oled_clear s else s))
        (l0 ++ [{ x := (stringCursor size x y).1, y := (stringCursor size x y).2.1,
                  chr := c, size := size, mode := 1 }])
      refine ⟨h1,
        CharCall.mk (stringCursor size x y).1 (stringCursor size x y).2.1 c size 1 :: l, ?_, ?_⟩
      · rw [h2]
        simp
      · intro c' hc'
        rcases List.mem_cons.mp hc' with h | h
        · subst h
          have := stringCursor_in_range size x y hsz
          exact ⟨this.1, this.2, rfl, rfl⟩
        · exact h3 c' h
    · rw [show_string_with_stop _ _ _ _ _ _ _ _ hc, show_string_with_stop _ _ _ _ _ _ _ _ hc]
      exact ⟨rfl, [], by simp, by simp⟩

/-- C18: for a supported size, every start `(x, y)`, framebuffer and text, each
`oled_show_char` call made by `oled_show_string` is at a position with
`x <= 128 - size/2` and `y <= 64 - size`: the whole `size/2`-by-`size` cell lies
in columns 0..127 and rows 0..63, and advancing the column by `size/2` never
passes 255.  The calls are those recorded by running the string loop on the
state together with a ghost list of calls. -/
theorem C18_string_cells_on_screen (F : Font) (size x y : Nat) (text : List Nat) (s : State)
    (hsz : size = 12 ∨ size = 16 ∨ size = 24) :
    (oled_show_string_with (traceChar F) traceClear size x y text (s, [])).1 =
      oled_show_string F x y text size s ∧
    ∀ c ∈ (oled_show_string_with (traceChar F) traceClear size x y text (s, [])).2,
      c.x ≤ 128 - size / 2 ∧ c.y ≤ 64 - size ∧
      c.x + size / 2 ≤ 128 ∧ c.y + size ≤ 64 ∧
      (c.x + size / 2) % 256 = c.x + size / 2 ∧ c.size = size ∧ c.mode = 1 := by
  obtain ⟨h1, l, h2, h3⟩ := show_string_trace F size hsz text x y s []
  refine ⟨h1, ?_⟩
  intro c hc
  rw [h2, List.nil_append] at hc
  obtain ⟨hx, hy, hs, hm⟩ := h3 c hc
  refine ⟨hx, hy, ?_, ?_, ?_, hs, hm⟩
  · rcases hsz with rfl | rfl | rfl <;> omega
  · rcases hsz with rfl | rfl | rfl <;> omega
  · apply Nat.mod_eq_of_lt
    rcases hsz with rfl | rfl | rfl <;> omega

theorem C18_string_cells_on_screen_witness :
    (16 = 12 ∨ 16 = 16 ∨ 16 = 24) ∧
    (oled_show_string_with (traceChar probeFont) traceClear 16 250 200 [72, 105] (fullState, [])).2 =
      [{ x := 0, y := 0, chr := 72, size := 16, mode := 1 },
       { x := 8, y := 0, chr := 105, size := 16, mode := 1 }] ∧
    ∀ c ∈ (oled_show_string_with (traceChar probeFont) traceClear 16 250 200 [72, 105]
        (fullState, [])).2, c.x ≤ 128 - 16 / 2 ∧ c.y ≤ 64 - 16 :=
  ⟨by decide, by decide,
   fun c hc => ⟨((C18_string_cells_on_screen probeFont 16 250 200 [72, 105] fullState
      (by decide)).2 c hc).1,
     ((C18_string_cells_on_screen probeFont 16 250 200 [72, 105] fullState
      (by decide)).2 c hc).2.1⟩⟩

/-! ## String overflow -/

theorem draw_point_congr (x y dot : Nat) (s1 s2 : State) (h : ScreenEq s1 s2) :
    ScreenEq (oled_draw_point x y dot s1) (oled_draw_point x y dot s2) := by
  intro c p hc hp
  unfold oled_draw_point
  by_cases hg : x > 127 ∨ y > 63
  · rw [if_pos hg, if_pos hg]
    exact h c p hc hp
  · rw [if_neg hg, if_neg hg]
    dsimp only
    have hxy : s1.gram x (y / 8) = s2.gram x (y / 8) := h x (y / 8) (by omega) (by omega)
    by_cases hd : dot ≠ 0
    · simp only [if_pos hd, gram_store, hxy]
      by_cases hcp : c = x ∧ p = y / 8
      · simp only [if_pos hcp]
      · simp only [if_neg hcp, h c p hc hp]
    · simp only [if_neg hd, gram_store, hxy]
      by_cases hcp : c = x ∧ p = y / 8
      · simp only [if_pos hcp]
      · simp only [if_neg hcp, h c p hc hp]

theorem show_char_bits_congr (size mode y0 rem x y temp : Nat) (s1 s2 : State)
    (h : ScreenEq s1 s2) :
    (show_char_bits size mode y0 rem x y temp s1).1 =
      (show_char_bits size mode y0 rem x y temp s2).1 ∧
    (show_char_bits size mode y0 rem x y temp s1).2.1 =
      (show_char_bits size mode y0 rem x y temp s2).2.1 ∧
    ScreenEq (show_char_bits size mode y0 rem x y temp s1).2.2
      (show_char_bits size mode y0 rem x y temp s2).2.2 := by
  induction rem generalizing x y temp s1 s2 with
  | zero => exact ⟨rfl, rfl, h⟩
  | succ rem ih =>
    rw [show_char_bits_step, show_char_bits_step]
    by_cases hc : (((y + 1) % 256 : Nat) : Int) - (y0 : Int) = (size : Int)
    · rw [if_pos hc, if_pos hc]
      exact ⟨rfl, rfl, draw_point_congr _ _ _ _ _ h⟩
    · rw [if_neg hc, if_neg hc]
      exact ih _ _ _ _ _ (draw_point_congr _ _ _ _ _ h)

theorem show_char_glyph_congr (pfont : Nat → Nat) (size mode y0 csize x y : Nat)
    (s1 s2 : State) (h : ScreenEq s1 s2) :
    ScreenEq (show_char_glyph pfont size mode y0 csize x y s1)
      (show_char_glyph pfont size mode y0 csize x y s2) := by
  unfold show_char_glyph
  have hrun : ∀ t,
      (forUpTo t (fun t (st : Nat × Nat × State) =>
        show_char_bits size mode y0 8 st.1 st.2.1 (pfont t % 256) st.2.2) (x, y, s1)).1 =
      (forUpTo t (fun t (st : Nat × Nat × State) =>
        show_char_bits size mode y0 8 st.1 st.2.1 (pfont t % 256) st.2.2) (x, y, s2)).1 ∧
      (forUpTo t (fun t (st : Nat × Nat × State) =>
        show_char_bits size mode y0 8 st.1 st.2.1 (pfont t % 256) st.2.2) (x, y, s1)).2.1 =
      (forUpTo t (fun t (st : Nat × Nat × State) =>
        show_char_bits size mode y0 8 st.1 st.2.1 (pfont t % 256) st.2.2) (x, y, s2)).2.1 ∧
      ScreenEq
        (forUpTo t (fun t (st : Nat × Nat × State) =>
          show_char_bits size mode y0 8 st.1 st.2.1 (pfont t % 256) st.2.2) (x, y, s1)).2.2
        (forUpTo t (fun t (st : Nat × Nat × State) =>
          show_char_bits size mode y0 8 st.1 st.2.1 (pfont t % 256) st.2.2) (x, y, s2)).2.2 := by
    intro t
    induction t with
    | zero => exact ⟨rfl, rfl, h⟩
    | succ t ih =>
      rw [forUpTo_succ, forUpTo_succ]
      obtain ⟨h1, h2, h3⟩ := ih
      rw [h1, h2]
      exact show_char_bits_congr _ _ _ _ _ _ _ _ _ h3
  exact (hrun csize).2.2

/-- What `oled_show_char` leaves in the framebuffer depends only on the
framebuffer it was given. -/
theorem show_char_congr (F : Font) (x y chr size mode : Nat) (s1 s2 : State)
    (h : ScreenEq s1 s2) :
    ScreenEq (oled_show_char F x y chr size mode s1) (oled_show_char F x y chr size mode s2) := by
  unfold oled_show_char
  dsimp only
  by_cases h12 : size = 12
  · rw [if_pos h12, if_pos h12]
    exact show_char_glyph_congr _ _ _ _ _ _ _ _ _ h
  · rw [if_neg h12, if_neg h12]
    by_cases h16 : size = 16
    · rw [if_pos h16, if_pos h16]
      exact show_char_glyph_congr _ _ _ _ _ _ _ _ _ h
    · rw [if_neg h16, if_neg h16]
      by_cases h24 : size = 24
      · rw [if_pos h24, if_pos h24]
        exact show_char_glyph_congr _ _ _ _ _ _ _ _ _ h
      · rw [if_neg h24, if_neg h24]
        exact h

theorem clear_congr (s1 s2 : State) : ScreenEq (oled_clear s1) (oled_clear s2) := by
  intro c p hc hp
  rw [clear_gram s1 c p hc hp, clear_gram s2 c p hc hp]

/-- What `oled_show_string` leaves in the framebuffer depends only on the
framebuffer it was given. -/
theorem show_string_congr (F : Font) (size : Nat) (text : List Nat) (x y : Nat)
    (s1 s2 : State) (h : ScreenEq s1 s2) :
    ScreenEq (oled_show_string F x y text size s1) (oled_show_string F x y text size s2) := by
  unfold oled_show_string
  induction text generalizing x y s1 s2 with
  | nil =>
    rw [show_string_with_nil, show_string_with_nil]
    exact h
  | cons c p ih =>
    by_cases hc : 32 ≤ c ∧ c ≤ 126
    · rw [show_string_with_cons _ _ _ _ _ _ _ _ hc, show_string_with_cons _ _ _ _ _ _ _ _ hc]
      apply ih
      apply show_char_congr
      by_cases hov : (stringCursor size x y).2.2 = true
      · rw [if_pos hov, if_pos hov]
        exact clear_congr s1 s2
      · rw [if_neg hov, if_neg hov]
        exact h
    · rw [show_string_with_stop _ _ _ _ _ _ _ _ hc, show_string_with_stop _ _ _ _ _ _ _ _ hc]
      exact h

/-- C11: for a supported size, a column `x <= 128 - size/2`, a row
`y > 64 - size` and a text whose first character is printable, the framebuffer
after `oled_show_string(x, y, text, size)` equals, byte for byte and pixel for
pixel, the framebuffer after `oled_show_string(0, 0, text, size)` run on the
all-zero framebuffer, whatever the framebuffer held before. -/
theorem C11_string_overflow_restart (F : Font) (x y c size : Nat) (p : List Nat) (s : State)
    (hsz : size = 12 ∨ size = 16 ∨ size = 24) (hc : 32 ≤ c ∧ c ≤ 126)
    (hx : x ≤ 128 - size / 2) (hy : 64 - size < y) :
    (∀ col page, col < 128 → page < 8 →
      (oled_show_string F x y (c :: p) size s).gram col page =
        (oled_show_string F 0 0 (c :: p) size zeroState).gram col page) ∧
    (∀ px py, px < 128 → py < 64 →
      pixel (oled_show_string F x y (c :: p) size s) px py =
        pixel (oled_show_string F 0 0 (c :: p) size zeroState) px py) := by
  have hcur1 : stringCursor size x y = (0, 0, true) := by
    have h1 : ¬ ((x : Int) > 128 - ((size / 2 : Nat) : Int)) := by
      rcases hsz with rfl | rfl | rfl <;> omega
    have h2 : (y : Int) > 64 - (size : Int) := by omega
    unfold stringCursor
    simp only [if_neg h1, if_pos h2]
  have hcur2 : stringCursor size 0 0 = (0, 0, false) := by
    have h1 : ¬ (((0 : Nat) : Int) > 128 - ((size / 2 : Nat) : Int)) := by
      rcases hsz with rfl | rfl | rfl <;> omega
    have h2 : ¬ (((0 : Nat) : Int) > 64 - (size : Int)) := by
      rcases hsz with rfl | rfl | rfl <;> omega
    unfold stringCursor
    simp only [if_neg h1, if_neg h2]
  have hmain : ScreenEq (oled_show_string F x y (c :: p) size s)
      (oled_show_string F 0 0 (c :: p) size zeroState) := by
    have e1 : oled_show_string F x y (c :: p) size s =
        oled_show_string F ((0 + size / 2) % 256) 0 p size
          (oled_show_char F 0 0 c size 1 (oled_clear s)) := by
      unfold oled_show_string
      rw [show_string_with_cons _ _ _ _ _ _ _ _ hc, hcur1]
      rfl
    have e2 : oled_show_string F 0 0 (c :: p) size zeroState =
        oled_show_string F ((0 + size / 2) % 256) 0 p size
          (oled_show_char F 0 0 c size 1 zeroState) := by
      unfold oled_show_string
      rw [show_string_with_cons _ _ _ _ _ _ _ _ hc, hcur2]
      rfl
    rw [e1, e2]
    apply show_string_congr
    apply show_char_congr
    intro col page hcol hpage
    rw [clear_gram s col page hcol hpage]
    rfl
  refine ⟨hmain, ?_⟩
  intro px py hpx hpy
  unfold pixel
  rw [hmain px (py / 8) hpx (by omega)]

theorem C11_string_overflow_restart_witness :
    ((16 = 12 ∨ 16 = 16 ∨ 16 = 24) ∧ (32 ≤ 65 ∧ 65 ≤ 126) ∧ 40 ≤ 128 - 16 / 2 ∧
      64 - 16 < 60) ∧
    pixel (oled_show_string probeFont 40 60 [65, 66] 16 fullState) 127 63 =
      pixel (oled_show_string probeFont 0 0 [65, 66] 16 zeroState) 127 63 :=
  ⟨by decide,
   (C11_string_overflow_restart probeFont 40 60 65 16 [66] fullState (by decide) (by decide)
      (by decide) (by decide)).2 127 63 (by decide) (by decide)⟩


/-! ## Termination of the fill loops -/

theorem traceDraw_col (x dot : Nat) (ys : List Nat) (s : State) (n : Nat) :
    ys.foldl (fun st yy => traceDraw x yy dot st) (s, n) =
      (ys.foldl (fun s yy => oled_draw_point x yy dot s) s, n + ys.length) := by
  induction ys generalizing s n with
  | nil => rfl
  | cons y ys ih =>
    rw [List.foldl_cons, List.foldl_cons]
    have : traceDraw x y dot (s, n) = (oled_draw_point x y dot s, n + 1) := rfl
    rw [this, ih, List.length_cons]
    congr 1
    omega

theorem traceDraw_rows (dot : Nat) (xs ys : List Nat) (s : State) (n : Nat) :
    xs.foldl (fun st xx => ys.foldl (fun st yy => traceDraw xx yy dot st) st) (s, n) =
      (xs.foldl (fun s xx => ys.foldl (fun s yy => oled_draw_point xx yy dot s) s) s,
        n + xs.length * ys.length) := by
  induction xs generalizing s n with
  | nil => simp
  | cons x xs ih =>
    rw [List.foldl_cons, List.foldl_cons, traceDraw_col, ih, List.length_cons]
    congr 1
    rw [Nat.add_mul, Nat.one_mul]
    omega

/-- With the limit 255 the test `y <= y2` never fails: the inner loop of
`oled_fill` runs out of any amount of fuel. -/
theorem fill_col_none {σ : Type} (draw : Nat → Nat → Nat → σ → σ) (x dot : Nat)
    (fuel y : Nat) (s : σ) (hy : y ≤ 255) : fill_col draw x 255 dot fuel y s = none := by
  induction fuel generalizing y s with
  | zero => rfl
  | succ fuel ih =>
    unfold fill_col
    rw [if_pos hy]
    exact ih _ _ (by omega)

/-- With the limit 255 the test `x <= x2` never fails: the outer loop of
`oled_fill` runs out of any amount of fuel. -/
theorem fill_rows_none {σ : Type} (draw : Nat → Nat → Nat → σ → σ) (y1 y2 dot : Nat)
    (fuel x : Nat) (s : σ) (hx : x ≤ 255) : fill_rows draw y1 255 y2 dot fuel x s = none := by
  induction fuel generalizing x s with
  | zero => rfl
  | succ fuel ih =>
    unfold fill_rows
    rw [if_pos hx]
    cases hcol : fill_col draw x y2 dot (fuel + 1) y1 s with
    | none => rfl
    | some s' => exact ih _ _ (by omega)

/-- C19: with wrapping 8-bit counters, for every `x1`, `y1` and limits
`x2 <= 254`, `y2 <= 254`, `oled_fill` returns, after exactly
`max(0, x2-x1+1) * max(0, y2-y1+1)` calls of `oled_draw_point` (counted by a
ghost counter run along the loops).  With a limit of 255 the loop test cannot
fail: the outer loop with `x2 = 255`, and the inner loop with `y2 = 255` once
it is entered, never end. -/
theorem C19_fill_terminates (fuel x1 y1 x2 y2 dot : Nat) (s : State)
    (hx2 : x2 ≤ 254) (hy2 : y2 ≤ 254) (hf : 512 ≤ fuel) :
    (∃ s', fill_rows traceDraw y1 x2 y2 dot fuel x1 (s, 0) =
        some (s', (x2 + 1 - x1) * (y2 + 1 - y1)) ∧
      oled_fill fuel x1 y1 x2 y2 dot s = some (oled_refresh_gram s')) ∧
    (((x2 + 1 - x1 : Nat) : Int) = max 0 ((x2 : Int) - (x1 : Int) + 1) ∧
      ((y2 + 1 - y1 : Nat) : Int) = max 0 ((y2 : Int) - (y1 : Int) + 1)) ∧
    (∀ fuel' x y1' y2', x ≤ 255 → oled_fill fuel' x y1' 255 y2' dot s = none) ∧
    (∀ fuel' x x2' y, x ≤ x2' → y ≤ 255 → oled_fill fuel' x y x2' 255 dot s = none) := by
  refine ⟨?_, ⟨by omega, by omega⟩, ?_, ?_⟩
  · refine ⟨_, ?_, fill_eq fuel x1 y1 x2 y2 dot s hx2 hy2 hf⟩
    rw [fill_rows_eq traceDraw y1 x2 y2 dot hx2 hy2 fuel x1 (s, 0) (by omega), traceDraw_rows]
    simp
  · intro fuel' x y1' y2' hx
    unfold oled_fill
    rw [fill_rows_none oled_draw_point y1' y2' dot fuel' x s hx]
  · intro fuel' x x2' y hx hy
    unfold oled_fill
    cases fuel' with
    | zero => rfl
    | succ f =>
      unfold fill_rows
      rw [if_pos hx, fill_col_none oled_draw_point x dot (f + 1) y s hy]

theorem C19_fill_terminates_witness :
    ((20 : Nat) ≤ 254 ∧ (20 : Nat) ≤ 254 ∧ 512 ≤ 512) ∧
    ∃ s', fill_rows traceDraw 10 20 20 1 512 10 (zeroState, 0) = some (s', 121) ∧
      oled_fill 512 10 10 20 20 1 zeroState = some (oled_refresh_gram s') :=
  ⟨by decide,
   (C19_fill_terminates 512 10 10 20 20 1 zeroState (by decide) (by decide) (by decide)).1⟩

/-! ## The divisor of the digit extraction -/

theorem oled_pow_loop_zero (m n : Nat) : oled_pow_loop m n 0 = 0 := by
  induction n with
  | zero => rfl
  | succ n ih =>
    unfold oled_pow_loop
    simpa using ih

theorem oled_pow_loop_add (m a b r : Nat) :
    oled_pow_loop m (a + b) r = oled_pow_loop m b (oled_pow_loop m a r) := by
  induction a generalizing r with
  | zero => simp [oled_pow_loop]
  | succ a ih =>
    have : a + 1 + b = (a + b) + 1 := by omega
    rw [this]
    conv => lhs; unfold oled_pow_loop
    conv => rhs; arg 3; unfold oled_pow_loop
    exact ih _

theorem oled_pow_ten_32 : oled_pow 10 32 = 0 := by decide

/-- From the exponent 32 on, `oled_pow(10, n)` is 0 in 32-bit arithmetic. -/
theorem oled_pow_ten_ge_32 (n : Nat) (h : 32 ≤ n) : oled_pow 10 n = 0 := by
  obtain ⟨k, rfl⟩ := Nat.exists_eq_add_of_le h
  unfold oled_pow
  rw [oled_pow_loop_add]
  have h32 : oled_pow_loop 10 32 1 = 0 := oled_pow_ten_32
  rw [h32, oled_pow_loop_zero]

/-- C20: in 32-bit wrapping arithmetic `oled_pow(10, n)` equals `10^n` for
`n <= 9` and is non-zero for every `n <= 31`; so for every `len <= 32` and every
`t < len` the divisor `oled_pow(10, len-t-1)` of `oled_show_num` is non-zero and
`oled_show_num` returns.  `oled_pow(10, 32)` is 0, so from `len = 33` on a zero
divisor occurs (at `t = len - 33`, and already in the first iteration). -/
theorem C20_pow_divisor {σ : Type} (show_char : Nat → Nat → Nat → Nat → Nat → σ → σ)
    (x y num size : Nat) (s : σ) :
    (∀ n, n ≤ 9 → oled_pow 10 n = 10 ^ n) ∧
    (∀ n, n ≤ 31 → oled_pow 10 n ≠ 0) ∧
    (∀ len t, len ≤ 32 → t < len → oled_pow 10 ((len - t - 1) % 256) ≠ 0) ∧
    (∀ len, len ≤ 32 → ∃ s', oled_show_num_with show_char x y num len size s = some s') ∧
    oled_pow 10 32 = 0 ∧
    (∀ len, 33 ≤ len → len ≤ 255 →
      oled_pow 10 ((len - (len - 33) - 1) % 256) = 0 ∧
      oled_pow 10 ((len - 0 - 1) % 256) = 0 ∧
      oled_show_num_with show_char x y num len size s = none) := by
  refine ⟨oled_pow_ten, oled_pow_ten_ne_zero, ?_, ?_, oled_pow_ten_32, ?_⟩
  · intro len t hlen ht
    have h1 : (len - t - 1) % 256 = len - t - 1 := by omega
    rw [h1]
    exact oled_pow_ten_ne_zero _ (by omega)
  · intro len hlen
    exact show_num_loop_some show_char x y num len size hlen len 0 0 s (by omega)
  · intro len h33 h255
    have h1 : (len - (len - 33) - 1) % 256 = 32 := by omega
    have h2 : (len - 0 - 1) % 256 = len - 1 := by omega
    have h0 : oled_pow 10 (len - 1) = 0 := oled_pow_ten_ge_32 _ (by omega)
    refine ⟨by rw [h1]; exact oled_pow_ten_32, by rw [h2]; exact h0, ?_⟩
    obtain ⟨r, rfl⟩ : ∃ r, len = r + 1 := ⟨len - 1, by omega⟩
    unfold oled_show_num_with show_num_loop
    simp only [h2, h0, if_true]

theorem C20_pow_divisor_witness :
    oled_pow 10 9 = 10 ^ 9 ∧ oled_pow 10 31 ≠ 0 ∧
    oled_show_num_with recordChar 0 0 7 33 16 [] = none :=
  ⟨(C20_pow_divisor recordChar 0 0 7 16 []).1 9 (by decide),
   (C20_pow_divisor recordChar 0 0 7 16 []).2.1 31 (by decide),
   ((C20_pow_divisor recordChar 0 0 7 16 []).2.2.2.2.2 33 (by decide) (by decide)).2.2⟩


/-! ## `oled_show_char` at an origin off the screen -/

/-- The inner loop of `oled_show_char` for a cell whose rows stay below 256,
the column being free to wrap. -/
theorem show_char_bits_eq_wrap (size mode y0 : Nat) (hy : y0 + size ≤ 255) (rem r x temp : Nat)
    (s : State) (hr : r < size) (ht : temp < 256) :
    show_char_bits size mode y0 rem x (y0 + r) temp s =
      (if size ≤ r + rem then (x + 1) % 256 else x,
       if size ≤ r + rem then y0 else y0 + r + rem,
       drawList ((List.range (min rem (size - r))).map
         (fun j => (x, y0 + r + j, bitDot mode ((temp <<< j) % 256)))) s) := by
  induction rem generalizing r temp s with
  | zero =>
    have h1 : ¬ size ≤ r + 0 := by omega
    rw [if_neg h1, if_neg h1]
    simp [show_char_bits, drawList]
  | succ rem ih =>
    rw [show_char_bits_step]
    have hm : (y0 + r + 1) % 256 = y0 + r + 1 := Nat.mod_eq_of_lt (by omega)
    rw [hm]
    by_cases hlast : r + 1 = size
    · have hc : ((y0 + r + 1 : Nat) : Int) - (y0 : Int) = (size : Int) := by omega
      rw [if_pos hc]
      have h1 : size ≤ r + (rem + 1) := by omega
      have h2 : min (rem + 1) (size - r) = 1 := by omega
      rw [if_pos h1, if_pos h1, h2, show List.range 1 = [0] from rfl]
      simp [drawList, Nat.mod_eq_of_lt ht]
    · have hc : ¬ (((y0 + r + 1 : Nat) : Int) - (y0 : Int) = (size : Int)) := by omega
      rw [if_neg hc]
      have hih := ih (r + 1) ((temp <<< 1) % 256)
        (oled_draw_point x (y0 + r) (bitDot mode temp) s) (by omega)
        (Nat.mod_lt _ (by decide))
      have h0 : y0 + r + 1 = y0 + (r + 1) := by omega
      rw [h0, hih]
      have h2 : min (rem + 1) (size - r) = min rem (size - (r + 1)) + 1 := by omega
      have h4 : r + 1 + rem = r + (rem + 1) := by omega
      rw [h2, List.range_succ_eq_map, List.map_cons, List.map_map, drawList_cons, h4]
      have hf : ((fun j => (x, y0 + r + j, bitDot mode ((temp <<< j) % 256))) ∘ Nat.succ) =
          (fun j => (x, y0 + (r + 1) + j, bitDot mode ((((temp <<< 1) % 256) <<< j) % 256))) := by
        funext j
        simp only [Function.comp, Nat.succ_eq_add_one, shift_step]
        have : y0 + r + (j + 1) = y0 + (r + 1) + j := by omega
        rw [this]
      rw [hf]
      by_cases h5 : size ≤ r + (rem + 1)
      · simp only [if_pos h5, Nat.shiftLeft_zero, Nat.add_zero, Nat.mod_eq_of_lt ht]
      · have h6 : y0 + (r + 1) + rem = y0 + r + (rem + 1) := by omega
        simp only [if_neg h5, h6, Nat.shiftLeft_zero, Nat.add_zero, Nat.mod_eq_of_lt ht]

/-- State of the outer loop of `oled_show_char` after `t` glyph bytes for a
cell whose rows stay below 256, the column being free to wrap past 255. -/
theorem show_char_outer_wrap_eq (pfont : Nat → Nat) (size k mode x y0 : Nat)
    (hsz : (size = 12 ∧ k = 2) ∨ (size = 16 ∧ k = 2) ∨ (size = 24 ∧ k = 3))
    (hx : x < 256) (hy : y0 + size ≤ 255) (t : Nat) (s : State) :
    forUpTo t (fun t (st : Nat × Nat × State) =>
        show_char_bits size mode y0 8 st.1 st.2.1 (pfont t % 256) st.2.2) (x, y0, s) =
      ((x + t / k) % 256, y0 + 8 * (t % k),
        drawList ((List.range t).flatMap (bytePointsW pfont size k mode x y0)) s) := by
  induction t with
  | zero =>
    rw [forUpTo_zero]
    simp [drawList, Nat.mod_eq_of_lt hx]
  | succ t ih =>
    rw [forUpTo_succ, ih]
    dsimp only
    have hr : 8 * (t % k) < size := by
      rcases hsz with ⟨rfl, rfl⟩ | ⟨rfl, rfl⟩ | ⟨rfl, rfl⟩ <;> omega
    rw [show_char_bits_eq_wrap size mode y0 hy 8 (8 * (t % k)) ((x + t / k) % 256)
      (pfont t % 256) _ hr (Nat.mod_lt _ (by decide))]
    rw [List.range_succ, List.flatMap_append, drawList_append]
    refine Prod.ext ?_ (Prod.ext ?_ ?_)
    · dsimp only
      rcases hsz with ⟨rfl, rfl⟩ | ⟨rfl, rfl⟩ | ⟨rfl, rfl⟩ <;> split <;> omega
    · dsimp only
      rcases hsz with ⟨rfl, rfl⟩ | ⟨rfl, rfl⟩ | ⟨rfl, rfl⟩ <;> split <;> omega
    · dsimp only
      simp [List.flatMap, bytePointsW]

/-- For a supported size, a printable character and a cell whose rows stay
below 256, `oled_show_char` is the sequence of `oled_draw_point` calls listed
by `bytePointsW`, wherever the origin is. -/
theorem show_char_wrap_eq (F : Font) (x y chr size mode : Nat) (s : State)
    (hsz : size = 12 ∨ size = 16 ∨ size = 24) (hc : 32 ≤ chr ∧ chr ≤ 126)
    (hx : x < 256) (hy : y + size ≤ 255) :
    oled_show_char F x y chr size mode s =
      drawList ((List.range (colBytes size * (size / 2))).flatMap
        (bytePointsW (glyphByte F size chr) size (colBytes size) mode x y)) s := by
  have hchr : (chr + 256 - 32) % 256 = chr - 32 := by omega
  unfold oled_show_char
  dsimp only
  rw [hchr]
  rcases hsz with rfl | rfl | rfl
  · have hk : colBytes 12 = 2 := by decide
    have hg : glyphByte F 12 chr = F.oled_asc2_1206 (chr - 32) := by
      funext t; simp [glyphByte]
    rw [if_pos rfl, hk, hg]
    have hcs : (((12 : Nat) / 8 + (if (12 : Nat) % 8 ≠ 0 then 1 else 0)) * (12 / 2)) % 256 =
        2 * (12 / 2) := by decide
    unfold show_char_glyph
    rw [hcs, show_char_outer_wrap_eq _ 12 2 mode x y (Or.inl ⟨rfl, rfl⟩) hx hy]
  · have hk : colBytes 16 = 2 := by decide
    have hg : glyphByte F 16 chr = F.oled_asc2_1608 (chr - 32) := by
      funext t; simp [glyphByte]
    rw [if_neg (by decide), if_pos rfl, hk, hg]
    have hcs : (((16 : Nat) / 8 + (if (16 : Nat) % 8 ≠ 0 then 1 else 0)) * (16 / 2)) % 256 =
        2 * (16 / 2) := by decide
    unfold show_char_glyph
    rw [hcs, show_char_outer_wrap_eq _ 16 2 mode x y (Or.inr (Or.inl ⟨rfl, rfl⟩)) hx hy]
  · have hk : colBytes 24 = 3 := by decide
    have hg : glyphByte F 24 chr = F.oled_asc2_2412 (chr - 32) := by
      funext t; simp [glyphByte]
    rw [if_neg (by decide), if_neg (by decide), if_pos rfl, hk, hg]
    have hcs : (((24 : Nat) / 8 + (if (24 : Nat) % 8 ≠ 0 then 1 else 0)) * (24 / 2)) % 256 =
        3 * (24 / 2) := by decide
    unfold show_char_glyph
    rw [hcs, show_char_outer_wrap_eq _ 24 3 mode x y (Or.inr (Or.inr ⟨rfl, rfl⟩)) hx hy]

/-- Points off the screen draw nothing. -/
theorem drawList_oob (pts : List (Nat × Nat × Nat)) (s : State)
    (h : ∀ p ∈ pts, 128 ≤ p.1 ∨ 64 ≤ p.2.1) : drawList pts s = s := by
  induction pts generalizing s with
  | nil => rfl
  | cons p ps ih =>
    rw [drawList_cons, draw_point_oob _ _ _ _ (h p (List.mem_cons_self _ _))]
    exact ih s (fun q hq => h q (List.mem_cons_of_mem _ hq))

theorem mem_glyph_points_wrap (pfont : Nat → Nat) (size k mode x y0 n : Nat)
    (p : Nat × Nat × Nat)
    (hp : p ∈ (List.range n).flatMap (bytePointsW pfont size k mode x y0)) :
    ∃ t j, t < n ∧ j < 8 ∧ 8 * (t % k) + j < size ∧
      p.1 = (x + t / k) % 256 ∧ p.2.1 = y0 + 8 * (t % k) + j := by
  simp only [List.mem_flatMap, List.mem_range, bytePointsW, List.mem_map] at hp
  obtain ⟨t, ht, j, hj, rfl⟩ := hp
  exact ⟨t, j, ht, by omega, by omega, rfl, rfl⟩

/-- When the rows of the cell pass 255 the test `(y - y0) == size` never holds:
the column is never advanced, and at a column off the screen nothing is
drawn. -/
theorem show_char_bits_ywrap (size mode y0 x : Nat) (hx : 128 ≤ x) (hy : 256 ≤ y0 + size)
    (rem y temp : Nat) (s : State) :
    (show_char_bits size mode y0 rem x y temp s).1 = x ∧
    (show_char_bits size mode y0 rem x y temp s).2.2 = s := by
  induction rem generalizing y temp with
  | zero => exact ⟨rfl, rfl⟩
  | succ rem ih =>
    rw [show_char_bits_step]
    have hc : ¬ ((((y + 1) % 256 : Nat) : Int) - (y0 : Int) = (size : Int)) := by omega
    rw [if_neg hc, draw_point_oob _ _ _ _ (Or.inl hx)]
    exact ih _ _

theorem show_char_ywrap (F : Font) (x y chr size mode : Nat) (s : State)
    (hx : 128 ≤ x) (hy : 256 ≤ y + size) : oled_show_char F x y chr size mode s = s := by
  have hg : ∀ (pfont : Nat → Nat) (csize : Nat),
      show_char_glyph pfont size mode y csize x y s = s := by
    intro pfont csize
    unfold show_char_glyph
    have := forUpTo_invariant (fun st : Nat × Nat × State => st.1 = x ∧ st.2.2 = s) csize
      (fun t (st : Nat × Nat × State) =>
        show_char_bits size mode y 8 st.1 st.2.1 (pfont t % 256) st.2.2) (x, y, s)
      ⟨rfl, rfl⟩
      (by
        intro i st hst
        obtain ⟨h1, h2⟩ := hst
        dsimp only
        rw [h1, h2]
        exact show_char_bits_ywrap size mode y x hx hy 8 _ _ s)
    exact this.2
  unfold oled_show_char
  dsimp only
  split
  · exact hg _ _
  · split
    · exact hg _ _
    · split
      · exact hg _ _
      · rfl

set_option maxRecDepth 1000000 in
/-- C17, as written the claim fails where the 8-bit cursor wraps onto the
screen: from `x = 250` (size 16) the columns run 250..255, 0, 1 and the last
two glyph columns are painted at columns 0 and 1; from `y = 250` the row wraps
to 0 and the glyph bits are painted down column 0. -/
theorem C17_show_char_offscreen_counterexample :
    pixel fullState 0 0 = true ∧
    ((128 ≤ 250 ∨ 64 ≤ 0) ∧
      pixel (oled_show_char probeFont 250 0 65 16 1 fullState) 0 0 = false) ∧
    ((128 ≤ 0 ∨ 64 ≤ 250) ∧
      pixel (oled_show_char probeFont 0 250 65 16 1 fullState) 0 0 = false) := by
  decide

/-- C17 amended: for a supported size, a printable character and an 8-bit
origin off the screen whose cell does not wrap onto the screen, that is
`y >= 64` with `y + size <= 255`, or `x >= 128` with `x + size/2 <= 256` and
`y + size <= 255`, or `x >= 128` with `y + size >= 256`, `oled_show_char`
returns the state it was given: framebuffer unchanged, nothing emitted. -/
theorem C17_show_char_offscreen_amended (F : Font) (x y chr size mode : Nat) (s : State)
    (hsz : size = 12 ∨ size = 16 ∨ size = 24) (hc : 32 ≤ chr ∧ chr ≤ 126)
    (hx : x < 256) (hy : y < 256)
    (h : (64 ≤ y ∧ y + size ≤ 255) ∨ (128 ≤ x ∧ x + size / 2 ≤ 256 ∧ y + size ≤ 255) ∨
      (128 ≤ x ∧ 256 ≤ y + size)) :
    oled_show_char F x y chr size mode s = s := by
  have hk : (size = 12 ∧ colBytes size = 2) ∨ (size = 16 ∧ colBytes size = 2) ∨
      (size = 24 ∧ colBytes size = 3) := by
    rcases hsz with rfl | rfl | rfl
    · exact Or.inl ⟨rfl, by decide⟩
    · exact Or.inr (Or.inl ⟨rfl, by decide⟩)
    · exact Or.inr (Or.inr ⟨rfl, by decide⟩)
  rcases h with ⟨h64, hrow⟩ | ⟨h128, hcol, hrow⟩ | ⟨h128, hrow⟩
  · rw [show_char_wrap_eq F x y chr size mode s hsz hc hx hrow]
    apply drawList_oob
    intro p hp
    obtain ⟨t, j, -, -, -, -, h2⟩ := mem_glyph_points_wrap _ _ _ _ _ _ _ p hp
    right
    omega
  · rw [show_char_wrap_eq F x y chr size mode s hsz hc hx hrow]
    apply drawList_oob
    intro p hp
    generalize colBytes size = k at hk hp
    obtain ⟨t, j, ht, -, -, h1, -⟩ := mem_glyph_points_wrap _ _ _ _ _ _ _ p hp
    left
    rcases hk with ⟨rfl, rfl⟩ | ⟨rfl, rfl⟩ | ⟨rfl, rfl⟩ <;> omega
  · exact show_char_ywrap F x y chr size mode s h128 hrow

theorem C17_show_char_offscreen_amended_witness :
    ((16 = 12 ∨ 16 = 16 ∨ 16 = 24) ∧ (32 ≤ 65 ∧ 65 ≤ 126) ∧ 248 < 256 ∧ 0 < 256 ∧
      ((64 ≤ 0 ∧ 0 + 16 ≤ 255) ∨ (128 ≤ 248 ∧ 248 + 16 / 2 ≤ 256 ∧ 0 + 16 ≤ 255) ∨
        (128 ≤ 248 ∧ 256 ≤ 0 + 16))) ∧
    oled_show_char probeFont 248 0 65 16 1 fullState = fullState :=
  ⟨by decide,
   C17_show_char_offscreen_amended probeFont 248 0 65 16 1 fullState (by decide) (by decide)
     (by decide) (by decide) (by decide)⟩


/-! ## The glyph traversal on a cell that may be clipped -/

/-- Membership in the list of points drawn for a glyph, the column being free
to wrap. -/
theorem mem_glyph_points_wrap_iff (pfont : Nat → Nat) (size k mode x y0 n : Nat)
    (p : Nat × Nat × Nat) :
    p ∈ (List.range n).flatMap (bytePointsW pfont size k mode x y0) ↔
      ∃ t j, t < n ∧ j < 8 ∧ 8 * (t % k) + j < size ∧
        p = ((x + t / k) % 256, y0 + 8 * (t % k) + j,
          bitDot mode (((pfont t % 256) <<< j) % 256)) := by
  simp only [List.mem_flatMap, List.mem_range, bytePointsW, List.mem_map]
  constructor
  · rintro ⟨t, ht, j, hj, rfl⟩
    exact ⟨t, j, ht, by omega, by omega, rfl⟩
  · rintro ⟨t, j, ht, hj, hjs, rfl⟩
    exact ⟨t, ht, j, by omega, rfl⟩

/-- Bit `7 - j` of glyph byte `t` ends at column `x + t / k`, row
`y + 8 * (t % k) + j` whenever that row is inside the cell and that pixel is
on the screen, wherever the rest of the cell lies. -/
theorem show_char_pixel_clipped (F : Font) (x y chr size mode : Nat) (s : State)
    (hsz : size = 12 ∨ size = 16 ∨ size = 24) (hc : 32 ≤ chr ∧ chr ≤ 126)
    (t j : Nat) (ht : t < colBytes size * (size / 2)) (hj : j < 8)
    (hin : 8 * (t % colBytes size) + j < size)
    (hpx : x + t / colBytes size < 128) (hpy : y + 8 * (t % colBytes size) + j < 64) :
    pixel (oled_show_char F x y chr size mode s)
        (x + t / colBytes size) (y + 8 * (t % colBytes size) + j) =
      ((glyphByte F size chr t).testBit (7 - j) == decide (mode ≠ 0)) := by
  have hx128 : x < 128 := Nat.lt_of_le_of_lt (Nat.le_add_right x _) hpx
  have hy64 : y < 64 :=
    Nat.lt_of_le_of_lt (Nat.le_trans (Nat.le_add_right y _) (Nat.le_add_right _ _)) hpy
  have hx : x < 256 := by omega
  have hy : y + size ≤ 255 := by rcases hsz with rfl | rfl | rfl <;> omega
  rw [show_char_wrap_eq F x y chr size mode s hsz hc hx hy]
  have hk : (size = 12 ∧ colBytes size = 2) ∨ (size = 16 ∧ colBytes size = 2) ∨
      (size = 24 ∧ colBytes size = 3) := by
    rcases hsz with rfl | rfl | rfl
    · exact Or.inl ⟨rfl, by decide⟩
    · exact Or.inr (Or.inl ⟨rfl, by decide⟩)
    · exact Or.inr (Or.inr ⟨rfl, by decide⟩)
  generalize colBytes size = k at hk ht hin hpx hpy ⊢
  have hmod : (x + t / k) % 256 = x + t / k := Nat.mod_eq_of_lt (by omega)
  apply drawList_pixel_mem _ _ _ _ _ hpx hpy
  · exact ⟨_, (mem_glyph_points_wrap_iff _ _ _ _ _ _ _ _).mpr ⟨t, j, ht, hj, hin, rfl⟩,
      hmod, rfl⟩
  · intro p hp h1 h2
    obtain ⟨t', j', ht', hj', hjs', rfl⟩ := (mem_glyph_points_wrap_iff _ _ _ _ _ _ _ _).mp hp
    dsimp only at h1 h2
    have htt : t' = t ∧ j' = j := by
      rcases hk with ⟨rfl, rfl⟩ | ⟨rfl, rfl⟩ | ⟨rfl, rfl⟩ <;> omega
    obtain ⟨rfl, rfl⟩ := htt
    exact bitDot_ne_zero mode _ _ hj

/-- C8 amended: with `k = ceil(size/8)` bytes per glyph column, for a
supported size, a printable character and every origin `(x, y0)`, bit `7 - t1`
of glyph byte `t < csize` is painted at pixel
`(x + t/k, y0 + (t mod k)*8 + t1)` whenever that row lies inside the cell
(`(t mod k)*8 + t1 < size`) and that pixel is on the screen, also when the
cell is clipped by the screen edge; for sizes 16 and 24, where `size/8 = k` and
every bit lies inside the cell, the formula with `size/8` holds for every bit
whose pixel is on the screen. -/
theorem C8_traversal_formula_amended (F : Font) (x y0 chr size mode : Nat) (s : State)
    (hsz : size = 12 ∨ size = 16 ∨ size = 24) (hc : 32 ≤ chr ∧ chr ≤ 126) :
    (∀ t t1, t < colBytes size * (size / 2) → t1 < 8 → (t % colBytes size) * 8 + t1 < size →
      x + t / colBytes size < 128 → y0 + (t % colBytes size) * 8 + t1 < 64 →
      pixel (oled_show_char F x y0 chr size mode s)
          (x + t / colBytes size) (y0 + (t % colBytes size) * 8 + t1) =
        ((glyphByte F size chr t).testBit (7 - t1) == decide (mode ≠ 0))) ∧
    (size = 16 ∨ size = 24 → ∀ t t1, t < colBytes size * (size / 2) → t1 < 8 →
      x + t / (size / 8) < 128 → y0 + (t % (size / 8)) * 8 + t1 < 64 →
      pixel (oled_show_char F x y0 chr size mode s)
          (x + t / (size / 8)) (y0 + (t % (size / 8)) * 8 + t1) =
        ((glyphByte F size chr t).testBit (7 - t1) == decide (mode ≠ 0))) := by
  have hmain : ∀ t t1, t < colBytes size * (size / 2) → t1 < 8 →
      (t % colBytes size) * 8 + t1 < size →
      x + t / colBytes size < 128 → y0 + (t % colBytes size) * 8 + t1 < 64 →
      pixel (oled_show_char F x y0 chr size mode s)
          (x + t / colBytes size) (y0 + (t % colBytes size) * 8 + t1) =
        ((glyphByte F size chr t).testBit (7 - t1) == decide (mode ≠ 0)) := by
    intro t t1 ht ht1 hin hpx hpy
    have h := show_char_pixel_clipped F x y0 chr size mode s hsz hc t t1 ht ht1
      (by omega) hpx (by omega)
    rw [Nat.mul_comm 8 (t % colBytes size)] at h
    exact h
  refine ⟨hmain, ?_⟩
  intro h1624 t t1 ht ht1 hpx hpy
  rcases h1624 with rfl | rfl
  · have hk : colBytes 16 = 2 := by decide
    have h := hmain t t1 ht ht1 (by rw [hk]; omega) (by rw [hk]; exact hpx)
      (by rw [hk]; exact hpy)
    rw [hk] at h
    exact h
  · have hk : colBytes 24 = 3 := by decide
    have h := hmain t t1 ht ht1 (by rw [hk]; omega) (by rw [hk]; exact hpx)
      (by rw [hk]; exact hpy)
    rw [hk] at h
    exact h

set_option maxRecDepth 100000 in
theorem C8_traversal_formula_amended_witness :
    ((16 = 12 ∨ 16 = 16 ∨ 16 = 24) ∧ (32 ≤ 65 ∧ 65 ≤ 126) ∧ 0 < colBytes 16 * (16 / 2) ∧
      0 < 8 ∧ (0 % colBytes 16) * 8 + 0 < 16 ∧ 125 + 0 / colBytes 16 < 128 ∧
      60 + (0 % colBytes 16) * 8 + 0 < 64) ∧
    pixel (oled_show_char probeFont 125 60 65 16 1 zeroState)
        (125 + 0 / colBytes 16) (60 + (0 % colBytes 16) * 8 + 0) = true :=
  ⟨by decide,
   ((C8_traversal_formula_amended probeFont 125 60 65 16 1 zeroState (by decide)
      (by decide)).1 0 0 (by decide) (by decide) (by decide) (by decide)
      (by decide)).trans (by decide)⟩

end Oled
